import Mathlib

/-!
# rHttp: field commits, focus cycle and response pagination

A shallow embedding of `main.go`: the twelve text inputs, the request draft that
the commit functions mutate, the focus state machine (`nextInput`, `prevInput`)
and the pagination arithmetic of `Update` and `getRespPageLines`.

Conventions of the embedding.

* Go `int` is `Int`. Offsets, line counts and screen sizes are far below `2^63`,
  so no operation of the modelled code wraps.
* Go strings are `String`; byte-level library functions are written over the
  character list. Every byte test they perform is an ASCII test, and a
  non-ASCII character consists of bytes `>= 0x80` only, so testing characters
  gives the same result as testing bytes.
* The package-level variables `screenHeight`, `usedScreenLines`, `offsetShift`
  and `formValues` are fields of the state.
* Library calls whose result does not depend on the program's own logic
  (regular-expression matching, query-string parsing and encoding, the
  highlighting of the body, the text input's own key handling) are parameters,
  collected in `Lib`.
* A run-time panic is the result `none`: the out-of-range slice of
  `getRespPageLines`, `regexp.MustCompile` on a method text that is not a regular
  expression, and the `panic` calls of `formatRespBody`. `setReqMethod`,
  `nextInput`, `Update` and the runs built on it return an `Option`.
-/

namespace RHttp

/-! ## Slot ordinals -/

def host : Nat := 0
def proto : Nat := 1
def method : Nat := 2
def urlPath : Nat := 3
def header : Nat := 4
def headerVal : Nat := 5
def param : Nat := 6
def paramVal : Nat := 7
def cookie : Nat := 8
def cookieVal : Nat := 9
def form : Nat := 10
def formVal : Nat := 11
def fieldsCount : Nat := 12

/-! ## `net/textproto` and `net/http` helpers -/

/-- Go `textproto.isASCIISpace`. -/
def isASCIISpace (c : Char) : Bool :=
  c = ' ' || c = '\t' || c = '\n' || c = '\r'

/-- Go `textproto.TrimString`: drop leading, then trailing ASCII space. -/
def trimChars (s : List Char) : List Char :=
  ((s.dropWhile isASCIISpace).reverse.dropWhile isASCIISpace).reverse

/-- Go `textproto.TrimString` on strings. -/
def TrimString (s : String) : String := String.mk (trimChars s.data)

/-- The token table of `net/textproto` (`validHeaderFieldByte`) and of
`httpguts.IsTokenRune`: ASCII letters, digits and the fifteen token symbols. -/
def isTokenChar (c : Char) : Bool :=
  c.isAlphanum || "!#$%&'*+-.^_`|~".data.contains c

/-- ASCII upper-casing of one byte, `c -= toLower` in `canonicalMIMEHeaderKey`. -/
def upperByte (c : Char) : Char :=
  if 'a' ≤ c ∧ c ≤ 'z' then Char.ofNat (c.toNat - 32) else c

/-- ASCII lower-casing of one byte, `c += toLower` in `canonicalMIMEHeaderKey`. -/
def lowerByte (c : Char) : Char :=
  if 'A' ≤ c ∧ c ≤ 'Z' then Char.ofNat (c.toNat + 32) else c

/-- The casing loop of `canonicalMIMEHeaderKey`: upper-case the first letter and
every letter after a dash, lower-case the others. `upper` is the loop variable. -/
def canonLoop : Bool → List Char → List Char
  | _, [] => []
  | upper, c :: cs =>
    let c1 := if upper then upperByte c else lowerByte c
    c1 :: canonLoop (c1 = '-') cs

/-- Go `textproto.CanonicalMIMEHeaderKey`: a key with a byte outside the token
table (a space included) is returned unchanged, any other key is recased. -/
def canonicalChars (a : List Char) : List Char :=
  if a.all isTokenChar then canonLoop true a else a

/-- Go `http.CanonicalHeaderKey`. -/
def CanonicalHeaderKey (s : String) : String := String.mk (canonicalChars s.data)

/-- Go `strings.ReplaceAll(h, " ", "-")`. -/
def replaceSpaces (s : List Char) : List Char :=
  s.map (fun c => if c = ' ' then '-' else c)

/-- Go `http.Header` / `url.Values`: a map from key to list of values, as an
association list with at most one entry per key. -/
abbrev Values := List (String × List String)

/-- Go `h[key]`: the values stored under exactly this key. -/
def valuesAt : Values → String → List String
  | [], _ => []
  | (k, vs) :: rest, key => if k = key then vs else valuesAt rest key

/-- Go `h[key] = vs`: overwrite the entry of this key, or add one. -/
def putAt : Values → String → List String → Values
  | [], key, vs => [(key, vs)]
  | (k, ws) :: rest, key, vs =>
    if k = key then (k, vs) :: rest else (k, ws) :: putAt rest key vs

/-- Go `url.Values.Get`: first value of the key, or the empty string. -/
def Values.Get (v : Values) (key : String) : String :=
  (valuesAt v key).headD ""

/-- Go `url.Values.Set`. -/
def Values.Set (v : Values) (key val : String) : Values := putAt v key [val]

/-- Go `url.Values.Add`. -/
def Values.Add (v : Values) (key val : String) : Values :=
  putAt v key (valuesAt v key ++ [val])

/-- Go `http.Header.Get`: first value under the canonical key, or "". -/
def Header.Get (h : Values) (key : String) : String :=
  (valuesAt h (CanonicalHeaderKey key)).headD ""

/-- Go `http.Header.Set`: the canonical key now holds exactly this value. -/
def Header.Set (h : Values) (key val : String) : Values :=
  putAt h (CanonicalHeaderKey key) [val]

/-! ## Cookies (`net/http` cookie.go) -/

/-- Go `http.Cookie`, the two fields the program sets and compares. -/
structure Cookie where
  Name : String
  Value : String
deriving DecidableEq, Repr

/-- Go `validCookieValueByte`. -/
def validCookieValueByte (c : Char) : Bool :=
  decide (0x20 ≤ c.toNat) && decide (c.toNat < 0x7f) && c != '"' && c != ';' && c != '\\'

/-- Go `sanitizeCookieName`: line breaks become dashes. -/
def sanitizeCookieName (n : List Char) : List Char :=
  n.map (fun c => if c = '\n' ∨ c = '\r' then '-' else c)

/-- Go `sanitizeCookieValue`: invalid bytes are dropped; a value with a space or
a comma is wrapped in double quotes. -/
def sanitizeCookieValue (v : List Char) : List Char :=
  let w := v.filter validCookieValueByte
  if w.isEmpty then w
  else if w.any (fun c => c = ' ' || c = ',') then '"' :: (w ++ ['"'])
  else w

/-- Go `parseCookieValue(raw, true)`: strip one pair of surrounding double
quotes, then accept the value only if every byte is valid. -/
def parseCookieValue (raw : List Char) : Option (List Char) :=
  let r :=
    if 1 < raw.length ∧ raw.head? = some '"' ∧ raw.getLast? = some '"'
    then (raw.drop 1).dropLast else raw
  if r.all validCookieValueByte then some r else none

/-- The successive values of `part` in the loop of `readCookies`:
`part, line, _ = strings.Cut(line, ";")` while `len(line) > 0`. -/
def cookieParts : List Char → List (List Char)
  | [] => []
  | c :: cs =>
    if c = ';' then [] :: cookieParts cs
    else match cookieParts cs with
      | [] => [[c]]
      | p :: ps => (c :: p) :: ps

/-- The body of the loop of `readCookies` for one `part`: trim, skip when empty,
cut at the first `=`, trim and check the name, parse the value. -/
def readCookiePart (part : List Char) : Option Cookie :=
  let p := trimChars part
  if p.isEmpty then none
  else
    let name := trimChars (p.takeWhile (fun c => c != '='))
    let val := (p.dropWhile (fun c => c != '=')).drop 1
    if name.isEmpty || !(name.all isTokenChar) then none
    else match parseCookieValue val with
      | none => none
      | some v => some ⟨String.mk name, String.mk v⟩

/-- The cookies of one `Cookie` header line. -/
def readCookieLine (line : List Char) : List Cookie :=
  (cookieParts (trimChars line)).filterMap readCookiePart

/-- Go `readCookies(h, "")`: the cookies of all lines of the `Cookie` header. -/
def readCookies (h : Values) : List Cookie :=
  (valuesAt h "Cookie").foldr (fun l acc => readCookieLine l.data ++ acc) []

/-- The text `name=value` that `AddCookie` writes for a cookie. -/
def cookiePairText (c : Cookie) : String :=
  String.mk (sanitizeCookieName c.Name.data ++ '=' :: sanitizeCookieValue c.Value.data)

/-- Go `(*Request).AddCookie` on the header map: append `name=value` to the
first `Cookie` line with the separator `"; "`, or start the line. -/
def addCookieHeader (h : Values) (c : Cookie) : Values :=
  let s := cookiePairText c
  let old := Header.Get h "Cookie"
  if old ≠ "" then Header.Set h "Cookie" (old ++ "; " ++ s)
  else Header.Set h "Cookie" s

/-! ## Text inputs (`bubbles/textinput`) -/

/-- The part of `textinput.Model` the program reads and writes: the text, the
suggestion list with the entries matching the text and the selected index, the
focus flag, and whether the prompt carries the active style. Cursor position and
colours are left out. Slot texts are single-line texts within the slot's
character limit, on which the sanitising and truncation of `SetValue` are the
identity. -/
structure TextInput where
  value : String
  suggestions : List String
  matchedSuggestions : List String
  currentSuggestionIndex : Nat
  focus : Bool
  promptActive : Bool
deriving DecidableEq, Repr

instance : Inhabited TextInput := ⟨⟨"", [], [], 0, false, false⟩⟩

/-- Go `Value()`. -/
def TextInput.Value (t : TextInput) : String := t.value

/-- Go `SetValue(s)`. -/
def TextInput.SetValue (t : TextInput) (s : String) : TextInput := { t with value := s }

/-- Go `Reset()`, which is `SetValue("")`. -/
def TextInput.Reset (t : TextInput) : TextInput := t.SetValue ""

/-- Go `CurrentSuggestion()`: the selected matching suggestion, or "" when the
index is past the matches. -/
def TextInput.CurrentSuggestion (t : TextInput) : String :=
  t.matchedSuggestions.getD t.currentSuggestionIndex ""

/-- Go `strings.ToLower` on ASCII text. -/
def toLowerStr (s : String) : List Char := s.data.map lowerByte

/-- The text input's `updateSuggestions`, run by its `Update` after every key
while suggestions are shown: no match for an empty text, otherwise the
suggestions that have the text as a case-insensitive prefix; the index goes back
to 0 when the matches change. -/
def TextInput.updateSuggestions (t : TextInput) : TextInput :=
  if t.value.data.isEmpty || t.suggestions.isEmpty then { t with matchedSuggestions := [] }
  else
    let found := t.suggestions.filter (fun s => (toLowerStr t.value).isPrefixOf (toLowerStr s))
    { t with
      matchedSuggestions := found
      currentSuggestionIndex := if found = t.matchedSuggestions then t.currentSuggestionIndex else 0 }

/-- Go `Blur()`. -/
def TextInput.Blur (t : TextInput) : TextInput := { t with focus := false }

/-- Go `Focus()`. -/
def TextInput.Focus (t : TextInput) : TextInput := { t with focus := true }

/-! ## Request draft, response, messages -/

/-- The fields of `*http.Request` the program reads and writes. `Host`, `Path`
and `RawQuery` are those of `req.URL`. -/
structure Request where
  Method : String
  Proto : String
  Host : String
  Path : String
  RawQuery : String
  Header : Values
  Body : Option String
deriving DecidableEq, Repr

/-- The fields of `*http.Response` the program reads, with the buffered body. -/
structure Response where
  StatusCode : Int
  Proto : String
  Status : String
  Header : Values
  Body : String
deriving DecidableEq, Repr

/-- Go `newReqest`: `http.NewRequest("GET", "http://localhost", nil)`. -/
def newReqest : Request :=
  { Method := "GET", Proto := "HTTP/1.1", Host := "localhost", Path := "", RawQuery := "",
    Header := [], Body := none }

/-- The key bindings of `Update`, in the order of its `switch`: a key message is
represented by the first case it matches, `other` when it matches none. -/
inductive Key where
  | PageDown | PageUp | FullScreen | Run | Prev | Next | Quit | Help | Enter | other
deriving DecidableEq, Repr

/-- The messages `Update` distinguishes. A `Timer` carries its payload and the
elapsed time read when it is handled. -/
inductive Msg where
  | timer (elapsed : Nat) (payload : Msg)
  | response (r : Response)
  | windowSize (width height : Int)
  | key (k : Key)
  | error (text : String)
  | other
deriving Repr

/-- The commands `Update` returns. -/
inductive Cmd where
  | batch
  | deliver (payload : Msg)
  | exitAltScreen
  | enterAltScreen
  | sendRequest (r : Request)
  | quit
  | clearScreen
  | none
deriving Repr

/-- Kind of the status-bar message. -/
inductive StatusKind where
  | statusInfo | statusError
deriving DecidableEq, Repr

/-- The library functions taken as parameters. `regexpMatch p s` is
`regexp.MustCompile(p).MatchString(s)`, with `none` when `MustCompile` panics
because `p` is not a regular expression. `parseQuery` and `encode` are
`url.ParseQuery` (its error dropped, as the code does) and `url.Values.Encode`.
`formatRespBody ct body` is the list of highlighted lines that `formatRespBody`
returns, with `none` when it panics (no lexer, or a tokenising or formatting
error). `inputUpdate` is `textinput.Model.Update`. -/
structure Lib where
  regexpMatch : String → String → Option Bool
  parseQuery : String → Values
  encode : Values → String
  formatRespBody : String → String → Option (List String)
  inputUpdate : Msg → TextInput → TextInput

/-- The application state: the fields of `model` that the code assigns, the
status bar's fields, and the package-level variables. -/
structure model where
  req : Request
  res : Option Response
  inputs : List TextInput
  focused : Int
  resBodyLines : List String
  fullScreen : Bool
  offset : Int
  statusKind : StatusKind
  statusText : String
  reqCount : Nat
  reqTime : Nat
  helpShowAll : Bool
  screenWidth : Int
  screenHeight : Int
  usedScreenLines : Int
  offsetShift : Int
  formValues : Values

/-- Go `m.inputs[i]`. -/
def model.input (m : model) (i : Nat) : TextInput := m.inputs.getD i default

/-- Apply `f` to element `i` of a list. -/
def updateAt {α : Type} : List α → Nat → (α → α) → List α
  | [], _, _ => []
  | x :: xs, 0, f => f x :: xs
  | x :: xs, i + 1, f => x :: updateAt xs i f

/-- Go `m.inputs[i] = f(m.inputs[i])`, for the pointer-receiver methods. -/
def model.mapInput (m : model) (i : Nat) (f : TextInput → TextInput) : model :=
  { m with inputs := updateAt m.inputs i f }

/-- Modelled from the spec: the status bar's `setStatus` (its file is not part of
the sources) records the kind and the text of the message shown. -/
def model.setStatus (m : model) (k : StatusKind) (text : String) : model :=
  { m with statusKind := k, statusText := text }

/-- Modelled from the spec: the status bar's `incReqCount` (its file is not part
of the sources) increments the request counter once. -/
def model.incReqCount (m : model) : model := { m with reqCount := m.reqCount + 1 }

/-- Go `allowedMethods`. -/
def allowedMethods : List String :=
  ["GET", "POST", "PUT", "PATCH", "HEAD", "DELETE", "OPTIONS", "PROPFIND", "SEARCH",
   "TRACE", "PATCH", "PUT", "CONNECT"]

/-- Whether slot `i` is the value half of a key/value pair. -/
def isValueSlot (i : Nat) : Bool :=
  i = headerVal || i = paramVal || i = cookieVal || i = formVal

/-- Go `blurPrompt`. -/
def model.blurPrompt (m : model) (i : Nat) : model :=
  let p := if isValueSlot i then i - 1 else i
  (m.mapInput p (fun t => { t with promptActive := false })).mapInput i TextInput.Blur

/-- Go `focusPrompt`. -/
def model.focusPrompt (m : model) (i : Nat) : model :=
  let n := if isValueSlot i then i - 1 else i
  (m.mapInput n (fun t => { t with promptActive := true })).mapInput i TextInput.Focus

/-- Go `clearRespArtefacts`. -/
def model.clearRespArtefacts (m : model) : model :=
  { m with res := none, resBodyLines := [], offset := 0 }

/-- Go slice expression `s[lo:hi]` on a slice whose capacity is its length:
`none` stands for the run-time panic "slice bounds out of range". -/
def sliceRange {α : Type} (s : List α) (lo hi : Int) : Option (List α) :=
  if 0 ≤ lo ∧ lo ≤ hi ∧ hi ≤ (s.length : Int)
  then some ((s.drop lo.toNat).take (hi - lo).toNat) else none

/-- Go `getRespPageLines`. -/
def model.getRespPageLines (m : model) : Option (List String) :=
  let limit := m.screenHeight - m.usedScreenLines - 2
  let endIdx := m.offset + limit
  if endIdx > (m.resBodyLines.length : Int) - 1 then
    sliceRange m.resBodyLines m.offset m.resBodyLines.length
  else
    sliceRange m.resBodyLines m.offset endIdx

/-! ## Field commits -/

/-- Go `correctHeader`: trim, replace spaces by dashes, canonicalise, and write
the result back into the input. -/
def correctHeader (i : TextInput) : TextInput :=
  let h := i.Value
  let h := TrimString h
  let h := String.mk (replaceSpaces h.data)
  let h := CanonicalHeaderKey h
  i.SetValue h

/-- Go `setReqHeader`. -/
def model.setReqHeader (m : model) : model :=
  let m := m.mapInput header correctHeader
  let name := (m.input header).Value
  let val := (m.input headerVal).Value
  if name ≠ "" ∧ val ≠ "" then
    let m := { m with req := { m.req with Header := Header.Set m.req.Header name val } }
    (m.mapInput header TextInput.Reset).mapInput headerVal TextInput.Reset
  else m

/-- Go `setReqParam`. -/
def model.setReqParam (L : Lib) (m : model) : model :=
  let v := L.parseQuery m.req.RawQuery
  let name := (m.input param).Value
  let val := (m.input paramVal).Value
  if name ≠ "" ∧ val ≠ "" then
    let v := Values.Set v name val
    let m := { m with req := { m.req with RawQuery := L.encode v } }
    (m.mapInput param TextInput.Reset).mapInput paramVal TextInput.Reset
  else m

/-- Go `setReqCookie`. The loop with `break` is the search for a cookie with
this name and this value among `m.req.Cookies()`. -/
def model.setReqCookie (m : model) : model :=
  let name := (m.input cookie).Value
  let val := (m.input cookieVal).Value
  if name ≠ "" ∧ val ≠ "" then
    let isNew := !(readCookies m.req.Header).any (fun i => i.Name = name && i.Value = val)
    let m :=
      if isNew then
        { m with req := { m.req with Header := addCookieHeader m.req.Header ⟨name, val⟩ } }
      else m
    (m.mapInput cookie TextInput.Reset).mapInput cookieVal TextInput.Reset
  else m

/-- Go `setReqForm`. -/
def model.setReqForm (L : Lib) (m : model) : model :=
  let name := (m.input form).Value
  let val := (m.input formVal).Value
  if name ≠ "" ∧ val ≠ "" then
    let fv :=
      if Values.Get m.formValues name ≠ "" then Values.Set m.formValues name val
      else Values.Add m.formValues name val
    let m := { m with
      formValues := fv
      req := { m.req with
        Header := Header.Set m.req.Header "Content-Type" "application/x-www-form-urlencoded"
        Body := some (L.encode fv) } }
    (m.mapInput form TextInput.Reset).mapInput formVal TextInput.Reset
  else m

/-- Go `setReqMethod`. The result is `none` when `regexp.MustCompile` panics on
the pattern built from the method text. -/
def model.setReqMethod (L : Lib) (m : model) : Option model :=
  match L.regexpMatch ("(?i)\\b" ++ (m.input method).Value) (" ".intercalate allowedMethods) with
  | none => none
  | some true =>
    let m := m.mapInput method (fun t => t.SetValue t.CurrentSuggestion)
    some { m with req := { m.req with Method := (m.input method).Value } }
  | some false =>
    some (m.mapInput method (fun t => t.SetValue m.req.Method))

/-- Go `setReqProto`. -/
def model.setReqProto (m : model) : model :=
  let val := (m.input proto).Value
  if val ≠ "0" ∧ val ≠ "1" then
    m.mapInput proto (fun t => t.SetValue "1")
  else
    { m with req := { m.req with Proto := "HTTP/1." ++ val } }

/-- Go `setReqUrlPath`. -/
def model.setReqUrlPath (m : model) : model :=
  { m with req := { m.req with Path := (m.input urlPath).Value } }

/-- Go `setReqHost`. -/
def model.setReqHost (m : model) : model :=
  { m with req := { m.req with Host := (m.input host).Value } }

/-- Go `restoreReqMethod`. -/
def model.restoreReqMethod (m : model) : model :=
  m.mapInput method (fun t => t.SetValue m.req.Method)

/-! ## Focus state machine -/

/-- Go `nextInput`. The result is `none` when the commit of the method slot
panics. -/
def model.nextInput (L : Lib) (m : model) : Option model :=
  let committed : Option model :=
    if m.focused = proto then some m.setReqProto
    else if m.focused = method then m.setReqMethod L
    else some m
  match committed with
  | none => none
  | some m =>
    let m := m.blurPrompt m.focused.toNat
    let m := { m with focused := Int.tmod (m.focused + 1) m.inputs.length }
    some (m.focusPrompt m.focused.toNat)

/-- Go `prevInput`. -/
def model.prevInput (m : model) : model :=
  let m := m.blurPrompt m.focused.toNat
  let m := { m with focused := m.focused - 1 }
  let m := if m.focused < 0 then { m with focused := (m.inputs.length : Int) - 1 } else m
  m.focusPrompt m.focused.toNat

/-! ## The event handler -/

/-- The end of `Update`: every input handles the message itself. -/
def model.updateInputs (L : Lib) (m : model) (msg : Msg) : model × Cmd :=
  ({ m with inputs := m.inputs.map (L.inputUpdate msg) }, Cmd.batch)

/-- The `PageDown` case of `Update`. -/
def model.pageDown (m : model) : model :=
  let availableScreenLines := m.screenHeight - m.usedScreenLines - 2
  if m.offset + m.offsetShift + availableScreenLines ≤ (m.resBodyLines.length : Int) then
    { m with offset := m.offset + m.offsetShift }
  else
    let m := { m with
      offset := m.offset + ((m.resBodyLines.length : Int) - availableScreenLines - m.offset) }
    if m.offset < 0 then { m with offset := 0 } else m

/-- The `PageUp` case of `Update`. -/
def model.pageUp (m : model) : model :=
  if m.offset - m.offsetShift ≥ 0 then { m with offset := m.offset - m.offsetShift }
  else { m with offset := 0 }

/-- The `Enter` case of `Update`: the commit of the focused slot's group. -/
def model.commitFocused (L : Lib) (m : model) : model :=
  if m.focused = header ∨ m.focused = headerVal then m.setReqHeader
  else if m.focused = param ∨ m.focused = paramVal then m.setReqParam L
  else if m.focused = cookie ∨ m.focused = cookieVal then m.setReqCookie
  else if m.focused = form ∨ m.focused = formVal then m.setReqForm L
  else if m.focused = method then m.restoreReqMethod
  else if m.focused = urlPath then m.setReqUrlPath
  else if m.focused = host then m.setReqHost
  else if m.focused = proto then m.setReqProto
  else m

/-- Go `Update`. The result is `none` when the handling of the message panics:
in `formatRespBody` for a response, in `setReqMethod` for the next-field and the
confirm key on the method slot. -/
def model.Update (L : Lib) (m : model) : Msg → Option (model × Cmd)
  | Msg.timer elapsed payload => some ({ m with reqTime := elapsed }, Cmd.deliver payload)
  | Msg.response r =>
    let m := { m with res := some r }
    match L.formatRespBody (Header.Get r.Header "content-type") r.Body with
    | none => none
    | some lines =>
      let m := { m with resBodyLines := lines }
      let m := m.setStatus StatusKind.statusInfo "request is executed, response taken"
      some (m.updateInputs L (Msg.response r))
  | Msg.windowSize width height =>
    let m := m.setStatus StatusKind.statusInfo
      ("detected screen size: " ++ toString width ++ " x " ++ toString height)
    let m := { m with screenWidth := width, screenHeight := height }
    some (m.updateInputs L (Msg.windowSize width height))
  | Msg.key Key.PageDown => some (m.pageDown.updateInputs L (Msg.key Key.PageDown))
  | Msg.key Key.PageUp => some (m.pageUp.updateInputs L (Msg.key Key.PageUp))
  | Msg.key Key.FullScreen =>
    if m.fullScreen then some ({ m with fullScreen := false }, Cmd.exitAltScreen)
    else some ({ m with fullScreen := true }, Cmd.enterAltScreen)
  | Msg.key Key.Run =>
    let m := m.setStatus StatusKind.statusInfo "sending request..."
    let m := m.clearRespArtefacts
    let m := m.incReqCount
    some (m, Cmd.sendRequest m.req)
  | Msg.key Key.Prev => some (m.prevInput.updateInputs L (Msg.key Key.Prev))
  | Msg.key Key.Next =>
    match m.nextInput L with
    | none => none
    | some m => some (m.updateInputs L (Msg.key Key.Next))
  | Msg.key Key.Quit => some (m, Cmd.quit)
  | Msg.key Key.Help => some ({ m with helpShowAll := !m.helpShowAll }, Cmd.none)
  | Msg.key Key.Enter =>
    match (m.commitFocused L).nextInput L with
    | none => none
    | some m => some (m.updateInputs L (Msg.key Key.Enter))
  | Msg.key Key.other => some (m.updateInputs L (Msg.key Key.other))
  | Msg.error text =>
    let m := m.setStatus StatusKind.statusError text
    some (m.clearRespArtefacts, Cmd.clearScreen)
  | Msg.other => some (m.updateInputs L Msg.other)

/-! ## Start state -/

/-- Go `NewKeyValInputs`: the start text of the slot, its suggestions, and the
focus on the host slot. The suggestions are set before they are switched on, so
no suggestion is matched yet. -/
def NewKeyValInputs (n : Nat) : TextInput :=
  if n = proto then ⟨"1", ["0", "1"], [], 0, false, false⟩
  else if n = host then ⟨"localhost", [], [], 0, true, true⟩
  else if n = method then ⟨"GET", allowedMethods, [], 0, false, false⟩
  else ⟨"", [], [], 0, false, false⟩

/-- Go `initialModel`, for a terminal of the given size, with the start values of
the package-level variables. -/
def initialModel (w h : Int) : model :=
  { req := newReqest
    res := none
    inputs := (List.range fieldsCount).map NewKeyValInputs
    focused := 0
    resBodyLines := []
    fullScreen := false
    offset := 0
    statusKind := StatusKind.statusInfo
    statusText := ""
    reqCount := 0
    reqTime := 0
    helpShowAll := false
    screenWidth := w
    screenHeight := h
    usedScreenLines := 0
    offsetShift := 5
    formValues := [] }

/-! ## Runs and a concrete library instance -/

/-- The state after handling the messages of a list, one after the other;
`none` when the handling of one of them panics. -/
def model.run (L : Lib) : model → List Msg → Option model
  | m, [] => some m
  | m, msg :: rest =>
    match m.Update L msg with
    | none => none
    | some s => model.run L s.1 rest

/-- The state after `k` presses of the page-down key. -/
def model.pagesDown (L : Lib) (m : model) (k : Nat) : Option model :=
  m.run L (List.replicate k (Msg.key Key.PageDown))

/-- The state after `k` presses of the next-field key. -/
def model.advances (L : Lib) (m : model) (k : Nat) : Option model :=
  m.run L (List.replicate k (Msg.key Key.Next))

/-- A message of the page-up or the page-down key. -/
def isPaging : Msg → Bool
  | Msg.key Key.PageDown => true
  | Msg.key Key.PageUp => true
  | _ => false

/-- ASCII word character, the class `\w` of Go regular expressions. -/
def isWordChar (c : Char) : Bool := c.isAlphanum || c = '_'

/-- Whether the regular expression `(?i)\b` followed by the literal text `t`
matches somewhere in the rest of a text: at a position where exactly one of the
previous and the next character is a word character, and where the rest starts
with `t` up to ASCII case. `prevWord` tells whether the previous character is a
word character. -/
def wordStartMatch (t : List Char) : Bool → List Char → Bool
  | prevWord, [] => prevWord && t.isEmpty
  | prevWord, c :: cs =>
    ((prevWord != isWordChar c) && (t.map lowerByte).isPrefixOf ((c :: cs).map lowerByte))
      || wordStartMatch t (isWordChar c) cs

/-- Go `strings.Split(s, "\n")` on the character list. -/
def splitLines : List Char → List String
  | [] => [""]
  | c :: cs =>
    if c = '\n' then "" :: splitLines cs
    else match splitLines cs with
      | [] => [String.mk [c]]
      | l :: ls => String.mk (c :: l.data) :: ls

/-- Whether a character is one of the special characters of Go regular
expressions. -/
def isRegexpSpecial (c : Char) : Bool := "\\.+*?()|[]^$".data.contains c || c = '\x7b' || c = '\x7d'

/-- A text that is a literal in a regular expression: ASCII characters, none of
them special. -/
def isLiteralText (t : List Char) : Bool :=
  t.all (fun c => decide (c.toNat < 128) && !isRegexpSpecial c)

/-- A text of literal characters and opening parentheses with at least one
opening parenthesis: the group it opens is never closed, so a pattern ending in
this text does not compile. -/
def hasUnclosedGroup (t : List Char) : Bool :=
  t.contains '(' && t.all (fun c => c = '(' || (decide (c.toNat < 128) && !isRegexpSpecial c))

/-- The outcome of `regexp.MustCompile("(?i)\\b" + t).MatchString(s)` for the two
kinds of text the examples use: a literal text is searched at a word
boundary, up to ASCII case; a text with an unclosed group makes `MustCompile`
panic. Any other text is not represented and is answered like a panic. -/
def sampleRegexpMatch (t s : List Char) : Option Bool :=
  if isLiteralText t then some (wordStartMatch t false s)
  else none

/-- A concrete library instance for evaluating the model on examples. The
pattern of `setReqMethod` is `(?i)\b` (six characters) followed by the method
text, see `sampleRegexpMatch`; a `text/plain` body is split into lines, without
colouring and padding, and any other content type is not represented and is
answered like a panic; a focused input refreshes its matching suggestions on a
key message; the query string is not interpreted. -/
def sampleLib : Lib :=
  { regexpMatch := fun p s => sampleRegexpMatch (p.data.drop 6) s.data
    parseQuery := fun _ => []
    encode := fun v => "&".intercalate (v.map (fun kv => kv.1 ++ "=" ++ ",".intercalate kv.2))
    formatRespBody := fun ct body => if ct = "text/plain" then some (splitLines body.data) else none
    inputUpdate := fun msg t =>
      match msg with
      | Msg.key _ => if t.focus then t.updateSuggestions else t
      | _ => t }

/-- A `text/plain` response whose body has `n + 1` empty lines. -/
def linesResponse (n : Nat) : Response :=
  { StatusCode := 200, Proto := "HTTP/1.1", Status := "200 OK",
    Header := [("Content-Type", ["text/plain"])],
    Body := String.mk (List.replicate n '\n') }

/-- The state in which the text of slot `i` has been edited to `s` by typing:
the input holds the text and its matching suggestions are up to date. -/
def model.typed (m : model) (i : Nat) (s : String) : model :=
  m.mapInput i (fun t => ({ t with value := s }).updateSuggestions)

/-- The texts between the semicolons of a line, the empty text after a final
semicolon included. -/
def cookieSegments : List Char → List (List Char)
  | [] => [[]]
  | c :: cs =>
    if c = ';' then [] :: cookieSegments cs
    else match cookieSegments cs with
      | [] => [[c]]
      | p :: ps => (c :: p) :: ps

/-- The cookies of the segments of a line. -/
def segmentCookies (line : List Char) : List Cookie :=
  (cookieSegments line).filterMap readCookiePart

/-- Go `isCookieNameValid`: a non-empty text of token characters. -/
def isCookieNameValid (n : String) : Bool := !n.data.isEmpty && n.data.all isTokenChar

/-- A non-empty text of valid cookie-value bytes, which `sanitizeCookieValue`
writes without dropping a byte. -/
def isCookieValueClean (v : String) : Bool :=
  !v.data.isEmpty && v.data.all validCookieValueByte

/-- The state in which the cookie slots hold the name `n` and the value `v`. -/
def model.withCookieText (m : model) (n v : String) : model :=
  (m.mapInput cookie (fun t => t.SetValue n)).mapInput cookieVal (fun t => t.SetValue v)

/-! ## The header-name form of the specification -/

/-- A token with its first character upper-cased and the others lower-cased
(only ASCII letters change). -/
def capitalizeToken : List Char → List Char
  | [] => []
  | c :: cs => upperByte c :: cs.map lowerByte

/-- The hyphen-separated tokens of a text. -/
def splitDash : List Char → List (List Char)
  | [] => [[]]
  | c :: cs =>
    if c = '-' then [] :: splitDash cs
    else match splitDash cs with
      | [] => [[c]]
      | p :: ps => (c :: p) :: ps

/-- Tokens joined by hyphens. -/
def joinDash : List (List Char) → List Char
  | [] => []
  | [p] => p
  | p :: q :: ps => p ++ '-' :: joinDash (q :: ps)

/-- The header name as the specification words it: surrounding whitespace
trimmed, every space replaced by a hyphen, every hyphen-separated token
capitalised. -/
def headerNameSpec (s : String) : String :=
  String.mk (joinDash ((splitDash (replaceSpaces (trimChars s.data))).map capitalizeToken))

/-! ## States used as examples -/

/-- The part of the state that pagination reads besides the offset. -/
def model.frame (m : model) : List String × Int × Int × Int :=
  (m.resBodyLines, m.screenHeight, m.usedScreenLines, m.offsetShift)

/-- A state with 100 rendered lines and a viewport of 20 lines. -/
def hundredLines : model :=
  { initialModel 100 22 with resBodyLines := List.replicate 100 "" }

/-- The start state in a terminal of 12 rows, after `View` has counted its 11
rows of chrome: 6 rows of inputs, 2 of request summary, 3 of response summary. -/
def smallTerminal : model := { initialModel 100 12 with usedScreenLines := 11 }

/-- The start state in a terminal of 33 rows with 11 rows of chrome. -/
def startModel : model := { initialModel 100 33 with usedScreenLines := 11 }

/-- Two runs in a row, the first response (100 lines), six page-downs, then the
second response (3 lines). -/
def staleResponseRun : List Msg :=
  [Msg.key Key.Run, Msg.key Key.Run, Msg.response (linesResponse 99)]
    ++ List.replicate 6 (Msg.key Key.PageDown) ++ [Msg.response (linesResponse 2)]

/-- The start state after the protocol text "0" has been committed. -/
def protoZero : model := ((initialModel 100 50).typed proto "0").setReqProto

/-- A state with 10 rendered lines, scrolled to line 5, in a terminal of 12 rows
with 11 rows of chrome. -/
def tenLinesSmall : model :=
  { initialModel 100 12 with
    usedScreenLines := 11, resBodyLines := List.replicate 10 "", offset := 5 }

/-- The start state after the header-name text "x auth" was typed, the
header-value text still empty. -/
def headerNameOnly : model := (initialModel 100 50).typed header "x auth"

/-- The start state with the focus moved to the method slot by two advances
(which return, the focus of the result is 2) and the method text edited to `s`. -/
def methodEdited (s : String) : model :=
  (((initialModel 100 50).advances sampleLib 2).getD (initialModel 100 50)).typed method s

/-- A text input holding the text `s`. -/
def inputWith (s : String) : TextInput := { (default : TextInput) with value := s }

/-- The cookie commit of the pair `(n, v)`: the texts are entered in the cookie
slots and `setReqCookie` runs. -/
def model.commitCookie (m : model) (n v : String) : model :=
  (m.withCookieText n v).setReqCookie

/-! # Theorems -/


/-! ## Lemmas: pagination -/

theorem updateAt_length {α : Type} (l : List α) (i : Nat) (f : α → α) :
    (updateAt l i f).length = l.length := by
  induction l generalizing i with
  | nil => rfl
  | cons x xs ih => cases i <;> simp [updateAt, ih]

theorem pageDown_offset_eq (m : model) :
    m.pageDown.offset =
      if m.offset + m.offsetShift + (m.screenHeight - m.usedScreenLines - 2)
          ≤ (m.resBodyLines.length : Int)
      then m.offset + m.offsetShift
      else max 0 ((m.resBodyLines.length : Int) - (m.screenHeight - m.usedScreenLines - 2)) := by
  unfold model.pageDown
  simp only []
  split
  · rfl
  · split
    · rename_i h; simp at h ⊢; omega
    · rename_i h; simp at h ⊢; omega

theorem pageUp_offset_eq (m : model) :
    m.pageUp.offset = if m.offset - m.offsetShift ≥ 0 then m.offset - m.offsetShift else 0 := by
  unfold model.pageUp
  split <;> rfl

theorem pageDown_frame (m : model) : m.pageDown.frame = m.frame := by
  unfold model.pageDown model.frame
  simp only []
  split
  · rfl
  · split <;> rfl

theorem pageUp_frame (m : model) : m.pageUp.frame = m.frame := by
  unfold model.pageUp model.frame
  split <;> rfl

theorem run_cons (L : Lib) (m : model) (msg : Msg) (rest : List Msg) (s : model × Cmd)
    (h : m.Update L msg = some s) : m.run L (msg :: rest) = s.1.run L rest := by
  simp [model.run, h]

theorem update_pageDown (L : Lib) (m : model) :
    ∃ s, m.Update L (Msg.key Key.PageDown) = some s ∧
      s.1.offset = m.pageDown.offset ∧ s.1.frame = m.frame :=
  ⟨_, rfl, rfl, pageDown_frame m⟩

theorem update_pageUp (L : Lib) (m : model) :
    ∃ s, m.Update L (Msg.key Key.PageUp) = some s ∧
      s.1.offset = m.pageUp.offset ∧ s.1.frame = m.frame :=
  ⟨_, rfl, rfl, pageUp_frame m⟩

theorem pagesDown_hundred (L : Lib) (k : Nat) (m : model)
    (hlen : m.resBodyLines.length = 100)
    (hh : m.screenHeight - m.usedScreenLines - 2 = 20) (hs : m.offsetShift = 5)
    (j : Nat) (hj : m.offset = min (5 * (j : Int)) 80) :
    (m.pagesDown L k).map (fun s => s.offset) = some (min (5 * ((j + k : Nat) : Int)) 80) := by
  induction k generalizing m j with
  | zero => simpa [model.pagesDown, model.run] using hj
  | succ k ih =>
    obtain ⟨s, hu, ho, hf⟩ := update_pageDown L m
    have hrun : m.pagesDown L (k + 1) = s.1.pagesDown L k := by
      unfold model.pagesDown
      rw [List.replicate_succ]
      exact run_cons L m _ _ s hu
    rw [hrun]
    have hf2 := hf
    simp only [model.frame, Prod.mk.injEq] at hf2
    obtain ⟨h1, h2, h3, h4⟩ := hf2
    have := ih s.1 (by rw [h1]; exact hlen)
      (by rw [h2, h3]; exact hh) (by rw [h4]; exact hs) (j + 1) (by
        rw [ho, pageDown_offset_eq, hh, hs, hlen, hj]
        push_cast
        split <;> omega)
    rw [this]
    congr 2
    push_cast
    omega

theorem paging_step (L : Lib) (m : model) (msg : Msg) (hp : isPaging msg = true)
    (hn : m.screenHeight - m.usedScreenLines - 2 ≤ (m.resBodyLines.length : Int))
    (hs : 0 < m.offsetShift)
    (hlo : 0 ≤ m.offset)
    (hhi : m.offset ≤ (m.resBodyLines.length : Int) - (m.screenHeight - m.usedScreenLines - 2)) :
    ∃ s, m.Update L msg = some s ∧ s.1.frame = m.frame ∧ 0 ≤ s.1.offset ∧
      s.1.offset ≤ (m.resBodyLines.length : Int) - (m.screenHeight - m.usedScreenLines - 2) := by
  match msg, hp with
  | Msg.key Key.PageDown, _ =>
    obtain ⟨s, hu, ho, hf⟩ := update_pageDown L m
    refine ⟨s, hu, hf, ?_, ?_⟩ <;> rw [ho, pageDown_offset_eq] <;> split <;> omega
  | Msg.key Key.PageUp, _ =>
    obtain ⟨s, hu, ho, hf⟩ := update_pageUp L m
    refine ⟨s, hu, hf, ?_, ?_⟩ <;> rw [ho, pageUp_offset_eq] <;> split <;> omega

theorem paging_run (L : Lib) (msgs : List Msg) (m : model)
    (hp : ∀ x ∈ msgs, isPaging x = true)
    (hn : m.screenHeight - m.usedScreenLines - 2 ≤ (m.resBodyLines.length : Int))
    (hs : 0 < m.offsetShift)
    (hlo : 0 ≤ m.offset)
    (hhi : m.offset ≤ (m.resBodyLines.length : Int) - (m.screenHeight - m.usedScreenLines - 2)) :
    ∃ m', m.run L msgs = some m' ∧ m'.frame = m.frame ∧ 0 ≤ m'.offset ∧
      m'.offset ≤ (m.resBodyLines.length : Int) - (m.screenHeight - m.usedScreenLines - 2) := by
  induction msgs generalizing m with
  | nil => exact ⟨m, rfl, rfl, hlo, hhi⟩
  | cons x xs ih =>
    obtain ⟨s, hu, hf, h1, h2⟩ :=
      paging_step L m x (hp x (List.mem_cons_self _ _)) hn hs hlo hhi
    have hf2 := hf
    simp only [model.frame, Prod.mk.injEq] at hf2
    obtain ⟨e1, e2, e3, e4⟩ := hf2
    obtain ⟨m', hr, hf', a, b⟩ := ih s.1 (fun y hy => hp y (List.mem_cons_of_mem _ hy))
      (by rw [e1, e2, e3]; exact hn) (by rw [e4]; exact hs) h1
      (by rw [e1, e2, e3]; exact h2)
    rw [e1, e2, e3] at b
    exact ⟨m', by rw [run_cons L m x xs s hu]; exact hr, by rw [hf', hf], a, b⟩

theorem getRespPageLines_full (m : model)
    (hh : 0 ≤ m.screenHeight - m.usedScreenLines - 2)
    (hlo : 0 ≤ m.offset)
    (hhi : m.offset ≤ (m.resBodyLines.length : Int) - (m.screenHeight - m.usedScreenLines - 2)) :
    m.getRespPageLines =
      some ((m.resBodyLines.drop m.offset.toNat).take
        (m.screenHeight - m.usedScreenLines - 2).toNat) := by
  unfold model.getRespPageLines sliceRange
  simp only []
  split
  · rw [if_pos (by omega)]
    have e : (m.resBodyLines.length : Int) - m.offset
        = m.screenHeight - m.usedScreenLines - 2 := by omega
    rw [e]
  · rw [if_pos (by omega)]
    congr 3
    omega



/-- C1. Page-down in `Update` returns, and sets the offset to `offset + shift`
when `offset + shift + h <= len(lines)` and to `max(0, len(lines) - h)` otherwise,
where `h = screenHeight - usedScreenLines - 2`; with 100 lines, `h = 20` and shift 5
the offset after `k` page-downs from 0 is `min(5k, 80)`: 5, 10, ..., 80, then 80
for ever. -/
theorem pageDown_computes_offset (L : Lib) (m : model) :
    (m.Update L (Msg.key Key.PageDown)).map (fun s => s.1.offset) =
      some (if m.offset + m.offsetShift + (m.screenHeight - m.usedScreenLines - 2)
          ≤ (m.resBodyLines.length : Int)
       then m.offset + m.offsetShift
       else max 0 ((m.resBodyLines.length : Int) - (m.screenHeight - m.usedScreenLines - 2))) ∧
    (m.resBodyLines.length = 100 → m.screenHeight - m.usedScreenLines - 2 = 20 →
      m.offsetShift = 5 → m.offset = 0 →
      ∀ k : Nat, (m.pagesDown L k).map (fun s => s.offset) = some (min (5 * (k : Int)) 80)) := by
  refine ⟨?_, ?_⟩
  · obtain ⟨s, hu, ho, _⟩ := update_pageDown L m
    rw [hu, Option.map_some', ho, pageDown_offset_eq]
  · intro hlen hh hs h0 k
    have := pagesDown_hundred L k m hlen hh hs 0 (by simpa using h0)
    simpa using this

/-- Witness of C1: the run on 100 lines in a viewport of 20 lines. -/
theorem pageDown_computes_offset_witness :
    [1, 2, 3, 4, 5, 6, 15, 16, 17, 40].map
        (fun k => (hundredLines.pagesDown sampleLib k).map (fun s => s.offset))
      = [some 5, some 10, some 15, some 20, some 25, some 30, some 75, some 80, some 80,
          some 80] := by
  have h := (pageDown_computes_offset sampleLib hundredLines).2
    (by decide) (by decide) (by decide) (by decide)
  simp only [List.map, h]
  decide

/-- C2. From offset 0, with a viewport height `0 <= h <= n` and a shift `s > 0`,
every finite sequence of page-down and page-up steps returns a state that keeps
`0 <= offset <= n - h` and leaves the lines untouched, and `getRespPageLines` then
returns, without a range error, exactly the `h` lines from `offset` on. -/
theorem paging_keeps_full_page (L : Lib) (m : model) (msgs : List Msg)
    (hp : ∀ x ∈ msgs, isPaging x = true)
    (h0 : m.offset = 0)
    (hh : 0 ≤ m.screenHeight - m.usedScreenLines - 2)
    (hn : m.screenHeight - m.usedScreenLines - 2 ≤ (m.resBodyLines.length : Int))
    (hs : 0 < m.offsetShift) :
    ∃ m', m.run L msgs = some m' ∧
      0 ≤ m'.offset ∧
      m'.offset ≤ (m.resBodyLines.length : Int) - (m.screenHeight - m.usedScreenLines - 2) ∧
      m'.resBodyLines = m.resBodyLines ∧
      m'.getRespPageLines =
        some ((m.resBodyLines.drop m'.offset.toNat).take
          (m.screenHeight - m.usedScreenLines - 2).toNat) ∧
      ((m.resBodyLines.drop m'.offset.toNat).take
          (m.screenHeight - m.usedScreenLines - 2).toNat).length
        = (m.screenHeight - m.usedScreenLines - 2).toNat := by
  obtain ⟨m', hr, hf, h1, h2⟩ := paging_run L msgs m hp hn hs (by omega) (by omega)
  have hf2 := hf
  simp only [model.frame, Prod.mk.injEq] at hf2
  obtain ⟨e1, e2, e3, _⟩ := hf2
  refine ⟨m', hr, h1, h2, e1, ?_, ?_⟩
  · have := getRespPageLines_full m' (by rw [e2, e3]; exact hh) h1
      (by rw [e1, e2, e3]; exact h2)
    rw [e1, e2, e3] at this
    exact this
  · rw [List.length_take, List.length_drop]
    omega

/-- Witness of C2: one page-down and two page-ups on 100 lines. -/
theorem paging_keeps_full_page_witness :
    ∃ m', hundredLines.run sampleLib
        [Msg.key Key.PageDown, Msg.key Key.PageUp, Msg.key Key.PageUp] = some m' ∧
      0 ≤ m'.offset ∧ m'.offset ≤ 80 ∧
      m'.getRespPageLines =
        some ((hundredLines.resBodyLines.drop m'.offset.toNat).take 20) := by
  obtain ⟨m', h1, h2, h3, _, h5, _⟩ := paging_keeps_full_page sampleLib hundredLines
    [Msg.key Key.PageDown, Msg.key Key.PageUp, Msg.key Key.PageUp]
    (by decide) (by decide) (by decide) (by decide) (by decide)
  exact ⟨m', h1, h2, h3, h5⟩

/-! ## Lemmas: focus -/

theorem setReqMethod_frame (L : Lib) (m m' : model) (h : m.setReqMethod L = some m') :
    m'.focused = m.focused ∧ m'.inputs.length = m.inputs.length := by
  unfold model.setReqMethod at h
  split at h
  · exact absurd h (by simp)
  · simp only [Option.some.injEq] at h
    subst h
    simp [model.mapInput, updateAt_length]
  · simp only [Option.some.injEq] at h
    subst h
    simp [model.mapInput, updateAt_length]

theorem setReqProto_frame (m : model) :
    m.setReqProto.focused = m.focused ∧ m.setReqProto.inputs.length = m.inputs.length := by
  unfold model.setReqProto
  simp only []
  split <;> simp [model.mapInput, updateAt_length]

theorem next_focused_aux (L : Lib) (m m' : model) (h : m.nextInput L = some m') :
    m'.focused = Int.tmod (m.focused + 1) m.inputs.length ∧
    m'.inputs.length = m.inputs.length := by
  unfold model.nextInput at h
  simp only [] at h
  split at h
  · exact absurd h (by simp)
  · rename_i c hc
    simp only [Option.some.injEq] at h
    subst h
    have hfr : c.focused = m.focused ∧ c.inputs.length = m.inputs.length := by
      split at hc
      · simp only [Option.some.injEq] at hc
        subst hc
        exact setReqProto_frame m
      · split at hc
        · exact setReqMethod_frame L m c hc
        · simp only [Option.some.injEq] at hc
          subst hc
          exact ⟨rfl, rfl⟩
    obtain ⟨f1, f2⟩ := hfr
    simp [model.blurPrompt, model.focusPrompt, model.mapInput, updateAt_length, f1, f2]

theorem nextInput_returns (L : Lib) (m : model)
    (h : m.focused ≠ 2 ∨
      (L.regexpMatch ("(?i)\\b" ++ (m.input method).Value)
        (" ".intercalate allowedMethods)).isSome = true) :
    ∃ m', m.nextInput L = some m' := by
  have hc : ∃ c, (if m.focused = (proto : Int) then some m.setReqProto
      else if m.focused = (method : Int) then m.setReqMethod L else some m) = some c := by
    by_cases hp : m.focused = (proto : Int)
    · exact ⟨_, if_pos hp⟩
    · rw [if_neg hp]
      by_cases hm : m.focused = (method : Int)
      · rw [if_pos hm]
        have hcomp : (L.regexpMatch ("(?i)\\b" ++ (m.input method).Value)
            (" ".intercalate allowedMethods)).isSome = true := by
          rcases h with h | h
          · exact absurd hm h
          · exact h
        obtain ⟨b, hb⟩ := Option.isSome_iff_exists.1 hcomp
        unfold model.setReqMethod
        rw [hb]
        cases b <;> exact ⟨_, rfl⟩
      · exact ⟨_, if_neg hm⟩
  obtain ⟨c, hc⟩ := hc
  unfold model.nextInput
  simp only [hc]
  exact ⟨_, rfl⟩

theorem nextInput_panics (L : Lib) (m : model) (hm : m.focused = 2)
    (hp : L.regexpMatch ("(?i)\\b" ++ (m.input method).Value)
        (" ".intercalate allowedMethods) = none) :
    m.nextInput L = none := by
  have h1 : m.setReqMethod L = none := by
    unfold model.setReqMethod
    rw [hp]
  unfold model.nextInput
  simp only []
  rw [if_neg (by rw [hm]; decide), if_pos (by rw [hm]; decide), h1]

theorem prev_focused_aux (m : model) :
    m.prevInput.focused = (if m.focused - 1 < 0 then (m.inputs.length : Int) - 1 else m.focused - 1) ∧
    m.prevInput.inputs.length = m.inputs.length := by
  unfold model.prevInput
  simp only []
  split <;> simp_all [model.blurPrompt, model.focusPrompt, model.mapInput, updateAt_length]
  split <;> omega

theorem tmod_twelve (f : Int) (h0 : 0 ≤ f) (h11 : f ≤ 11) :
    Int.tmod (f + 1) ((12 : Nat) : Int) = (f + 1) % 12 := by
  interval_cases f <;> decide

theorem next_focused (L : Lib) (m m' : model) (h : m.nextInput L = some m')
    (hlen : m.inputs.length = 12) (h0 : 0 ≤ m.focused) (h11 : m.focused ≤ 11) :
    m'.focused = (m.focused + 1) % 12 ∧ m'.inputs.length = 12 := by
  obtain ⟨a, b⟩ := next_focused_aux L m m' h
  rw [hlen] at a b
  exact ⟨by rw [a]; exact tmod_twelve _ h0 h11, b⟩

theorem update_next (L : Lib) (m : model) (s : model × Cmd)
    (h : m.Update L (Msg.key Key.Next) = some s) :
    ∃ m', m.nextInput L = some m' ∧ s.1.focused = m'.focused ∧
      s.1.inputs.length = m'.inputs.length := by
  cases hn : m.nextInput L with
  | none =>
    have : m.Update L (Msg.key Key.Next) = none := by
      show (match m.nextInput L with
        | none => none
        | some m => some (m.updateInputs L (Msg.key Key.Next))) = none
      rw [hn]
    rw [this] at h
    exact absurd h (by simp)
  | some m' =>
    have : m.Update L (Msg.key Key.Next) = some (m'.updateInputs L (Msg.key Key.Next)) := by
      show (match m.nextInput L with
        | none => none
        | some m => some (m.updateInputs L (Msg.key Key.Next))) = _
      rw [hn]
    rw [this] at h
    simp only [Option.some.injEq] at h
    subst h
    exact ⟨m', rfl, rfl, by simp [model.updateInputs]⟩

theorem advances_focused (L : Lib) (k : Nat) (m m' : model) (hlen : m.inputs.length = 12)
    (h0 : 0 ≤ m.focused) (h11 : m.focused ≤ 11) (h : m.advances L k = some m') :
    m'.focused = (m.focused + (k : Int)) % 12 := by
  induction k generalizing m with
  | zero =>
    simp only [model.advances, List.replicate_zero, model.run, Option.some.injEq] at h
    subst h
    simp
    omega
  | succ k ih =>
    unfold model.advances at h
    rw [List.replicate_succ] at h
    cases hu : m.Update L (Msg.key Key.Next) with
    | none => simp [model.run, hu] at h
    | some s =>
      rw [run_cons L m _ _ s hu] at h
      obtain ⟨n, hn, e1, e2⟩ := update_next L m s hu
      obtain ⟨a, b⟩ := next_focused L m n hn hlen h0 h11
      have := ih s.1 (by rw [e2, b]) (by rw [e1, a]; omega) (by rw [e1, a]; omega) h
      rw [this, e1, a]
      push_cast
      omega

/-- The focus transitions wherever `nextInput` returns. For every focused slot
`s` in `[0, 11]` of the twelve inputs: `prevInput` moves the focus to
`(s - 1) mod 12`, within `[0, 11]`; `nextInput` returns whenever the slot is not the
method slot or the pattern of the method text compiles; a state it returns has
the focus `(s + 1) mod 12`, within `[0, 11]`, and `prevInput` on it restores `s`;
and a run of `k` advances that returns ends on slot `(s + k) mod 12`. -/
theorem focus_shifts_when_returning (L : Lib) (m : model) (hlen : m.inputs.length = 12)
    (h0 : 0 ≤ m.focused) (h11 : m.focused ≤ 11) :
    m.prevInput.focused = (m.focused - 1) % 12 ∧
    (0 ≤ m.prevInput.focused ∧ m.prevInput.focused ≤ 11) ∧
    ((m.focused ≠ 2 ∨
        (L.regexpMatch ("(?i)\\b" ++ (m.input method).Value)
          (" ".intercalate allowedMethods)).isSome = true) →
      ∃ m', m.nextInput L = some m') ∧
    (∀ m', m.nextInput L = some m' →
      m'.focused = (m.focused + 1) % 12 ∧ (0 ≤ m'.focused ∧ m'.focused ≤ 11) ∧
      m'.prevInput.focused = m.focused) ∧
    (∀ k m', m.advances L k = some m' → m'.focused = (m.focused + (k : Int)) % 12) := by
  obtain ⟨hp, _⟩ := prev_focused_aux m
  rw [hlen] at hp
  refine ⟨?_, ⟨?_, ?_⟩, nextInput_returns L m, ?_, ?_⟩
  · rw [hp]; split <;> omega
  · rw [hp]; split <;> omega
  · rw [hp]; split <;> omega
  · intro m' hn
    obtain ⟨a, b⟩ := next_focused L m m' hn hlen h0 h11
    obtain ⟨hq, _⟩ := prev_focused_aux m'
    rw [b, a] at hq
    refine ⟨a, ⟨by rw [a]; omega, by rw [a]; omega⟩, ?_⟩
    rw [hq]; split <;> omega
  · intro k m' h
    exact advances_focused L k m m' hlen h0 h11 h

/-- C9. The focus does not advance for every state on the method slot: with the
method text "(" the pattern `(?i)\b(` has an unclosed group, `regexp.MustCompile`
panics in the commit that `nextInput` runs first, and neither `nextInput` nor the
next-field key in `Update` returns a state, so the focus is not moved to slot 3.
From the start state, whose method text is "GET", eleven advances reach slot 11
and the twelfth returns to slot 0. -/
theorem nextInput_panics_on_method_text :
    (methodEdited "(").focused = 2 ∧
    (methodEdited "(").inputs.length = 12 ∧
    ((methodEdited "(").input method).Value = "(" ∧
    hasUnclosedGroup "(".data = true ∧
    ((methodEdited "(").nextInput sampleLib).isNone = true ∧
    ((methodEdited "(").Update sampleLib (Msg.key Key.Next)).isNone = true ∧
    ((methodEdited "GET").nextInput sampleLib).map (fun s => s.focused) = some 3 ∧
    ((initialModel 100 50).advances sampleLib 11).map (fun s => s.focused) = some 11 ∧
    ((initialModel 100 50).advances sampleLib 12).map (fun s => s.focused) = some 0 := by
  decide

/-! ## Protocol commit -/


theorem input_mapInput_same (m : model) (i : Nat) (f : TextInput → TextInput)
    (h : i < m.inputs.length) : (m.mapInput i f).input i = f (m.input i) := by
  unfold model.mapInput model.input
  simp only []
  generalize m.inputs = l at h
  induction l generalizing i with
  | nil => simp at h
  | cons x xs ih =>
    cases i with
    | zero => simp [updateAt]
    | succ i =>
      have := ih i (by simpa using h)
      simpa [updateAt] using this

theorem input_mapInput_other (m : model) (i j : Nat) (f : TextInput → TextInput)
    (h : i ≠ j) : (m.mapInput i f).input j = m.input j := by
  unfold model.mapInput model.input
  simp only []
  generalize m.inputs = l
  induction l generalizing i j with
  | nil => simp [updateAt]
  | cons x xs ih =>
    cases i with
    | zero =>
      cases j with
      | zero => exact absurd rfl h
      | succ j => simp [updateAt]
    | succ i =>
      cases j with
      | zero => simp [updateAt]
      | succ j =>
        have := ih i j (by omega)
        simpa [updateAt] using this

/-- C5, as the code has it. For every state with the twelve inputs and every
pending protocol text other than "0" and "1", `setReqProto` leaves the request
draft unchanged, sets the slot text to "1" and leaves the other inputs as they
were; so when the draft's protocol is "HTTP/1.1", it is "HTTP/1." followed by the
slot text afterwards. -/
theorem setReqProto_rejects (m : model) (hlen : m.inputs.length = 12)
    (h0 : (m.input proto).Value ≠ "0") (h1 : (m.input proto).Value ≠ "1") :
    m.setReqProto.req = m.req ∧
    (m.setReqProto.input proto).Value = "1" ∧
    (∀ j, j ≠ proto → m.setReqProto.input j = m.input j) ∧
    (m.req.Proto = "HTTP/1.1" →
      m.setReqProto.req.Proto = "HTTP/1." ++ (m.setReqProto.input proto).Value) := by
  have e : m.setReqProto = m.mapInput proto (fun t => t.SetValue "1") := by
    unfold model.setReqProto
    simp only []
    rw [if_pos ⟨h0, h1⟩]
  have hs : (m.setReqProto.input proto).Value = "1" := by
    rw [e, input_mapInput_same m proto _ (by rw [hlen]; decide)]
    rfl
  refine ⟨by rw [e]; rfl, hs, ?_, ?_⟩
  · intro j hj
    rw [e]
    exact input_mapInput_other m proto j _ (Ne.symm hj)
  · intro hp
    rw [hs, e]
    show m.req.Proto = _
    rw [hp]
    decide

/-- Witness of C5: from the start state, the pending text "2". -/
theorem setReqProto_rejects_witness :
    ((((initialModel 100 50).typed proto "2").setReqProto).input proto).Value = "1" ∧
    (((initialModel 100 50).typed proto "2").setReqProto).req.Proto = "HTTP/1.1" := by
  have h := setReqProto_rejects ((initialModel 100 50).typed proto "2")
    (by decide) (by decide) (by decide)
  exact ⟨h.2.1, by rw [h.1]; decide⟩

/-- C5 as stated fails: with the committed protocol "HTTP/1.0", the rejected text
"2" leaves the protocol "HTTP/1.0" but sets the slot text to "1", not to the last
committed minor version "0", and the protocol is not "HTTP/1." followed by the
slot text. -/
theorem setReqProto_rollback_counterexample :
    protoZero.req.Proto = "HTTP/1.0" ∧
    ((protoZero.typed proto "2").input proto).Value = "2" ∧
    ((protoZero.typed proto "2").setReqProto).req.Proto = "HTTP/1.0" ∧
    (((protoZero.typed proto "2").setReqProto).input proto).Value = "1" ∧
    ((protoZero.typed proto "2").setReqProto).req.Proto
      ≠ "HTTP/1." ++ (((protoZero.typed proto "2").setReqProto).input proto).Value := by
  decide


/-! ## Offset on a new response, page slice on a small terminal, method commit -/

/-- Within range, with a non-negative height limit, `getRespPageLines` returns a
page. -/
theorem getRespPageLines_isSome (m : model)
    (hl : 0 ≤ m.screenHeight - m.usedScreenLines - 2)
    (h0 : 0 ≤ m.offset) (h1 : m.offset ≤ (m.resBodyLines.length : Int)) :
    m.getRespPageLines.isSome = true := by
  unfold model.getRespPageLines sliceRange
  simp only []
  split
  · rw [if_pos (by omega)]; rfl
  · rw [if_pos (by omega)]; rfl

set_option maxRecDepth 100000 in
/-- C3. The `*http.Response` case of `Update` returns exactly when the formatting
of the body returns, and keeps the offset it finds, whereas the Run key and an
error message set the offset to 0 and clear the lines. After two runs in a row,
the first response of 100 lines and six page-downs, the second response of 3
lines leaves the offset at 30, and `getRespPageLines` then slices out of range. -/
theorem response_keeps_offset :
    (∀ (L : Lib) (m : model) (r : Response),
      (m.Update L (Msg.response r)).map (fun s => s.1.offset) =
        (L.formatRespBody (Header.Get r.Header "content-type") r.Body).map (fun _ => m.offset)) ∧
    (∀ (L : Lib) (m : model),
      (m.Update L (Msg.key Key.Run)).map (fun s => (s.1.offset, s.1.resBodyLines))
        = some (0, [])) ∧
    (∀ (L : Lib) (m : model) (text : String),
      (m.Update L (Msg.error text)).map (fun s => (s.1.offset, s.1.resBodyLines))
        = some (0, [])) ∧
    (startModel.run sampleLib staleResponseRun).map
        (fun s => (s.offset, s.resBodyLines.length, s.getRespPageLines))
      = some (30, 3, none) := by
  refine ⟨?_, fun _ _ => rfl, fun _ _ _ => rfl, ?_⟩
  · intro L m r
    simp only [model.Update]
    cases L.formatRespBody (Header.Get r.Header "content-type") r.Body <;> rfl
  · decide

/-- C10. With a negative height limit `getRespPageLines` slices out of range: in a
terminal of 12 rows with 11 rows of chrome the limit is -1, and both the empty
list at offset 0 (`lines[0:-1]`) and 10 lines at offset 5 (`lines[5:4]`) make the
slice expression fail, although `0 <= offset <= len(lines)`. -/
theorem getRespPageLines_negative_limit :
    (smallTerminal.resBodyLines = [] ∧ smallTerminal.offset = 0 ∧
      smallTerminal.screenHeight - smallTerminal.usedScreenLines - 2 = -1 ∧
      smallTerminal.getRespPageLines = none) ∧
    (tenLinesSmall.resBodyLines.length = 10 ∧ tenLinesSmall.offset = 5 ∧
      tenLinesSmall.screenHeight - tenLinesSmall.usedScreenLines - 2 = -1 ∧
      tenLinesSmall.getRespPageLines = none) := by
  decide

/-- C4. The method commit does not follow the prefix rule for the text "get p":
it is a prefix of no allowed method, yet the pattern matches the joined list
"GET POST PUT ...", no suggestion is current, and the commit on leaving the slot
sets both the slot text and the draft's method to the empty text, which is not an
allowed method. The texts "po" and "zz" behave as the rule says on leaving the
slot; on the confirm key the text "po" also ends as the method "POST", through
the suggestion that is still current after the slot text was restored. -/
theorem setReqMethod_accepts_non_prefix :
    (methodEdited "get p").focused = 2 ∧
    (methodEdited "get p").req.Method = "GET" ∧
    allowedMethods.all (fun a => !(toLowerStr "get p").isPrefixOf (toLowerStr a)) = true ∧
    sampleLib.regexpMatch ("(?i)\\b" ++ "get p") (" ".intercalate allowedMethods) = some true ∧
    ((methodEdited "get p").Update sampleLib (Msg.key Key.Next)).map
      (fun s => s.1.req.Method) = some "" ∧
    ((methodEdited "get p").setReqMethod sampleLib).map (fun s => s.req.Method) = some "" ∧
    ((methodEdited "get p").setReqMethod sampleLib).map
      (fun s => (s.input method).Value) = some "" ∧
    "" ∉ allowedMethods ∧
    ((methodEdited "po").setReqMethod sampleLib).map (fun s => s.req.Method) = some "POST" ∧
    ((methodEdited "zz").setReqMethod sampleLib).map (fun s => s.req.Method) = some "GET" ∧
    ((methodEdited "zz").setReqMethod sampleLib).map
      (fun s => (s.input method).Value) = some "GET" ∧
    ((methodEdited "po").Update sampleLib (Msg.key Key.Enter)).map
      (fun s => s.1.req.Method) = some "POST" := by
  decide

/-! ## Commits of key/value pairs with an empty half -/

theorem updateAt_fix {α : Type} [Inhabited α] (l : List α) (i : Nat) (f : α → α)
    (h : f (l.getD i default) = l.getD i default) : updateAt l i f = l := by
  induction l generalizing i with
  | nil => rfl
  | cons x xs ih =>
    cases i with
    | zero => simpa [updateAt] using h
    | succ i =>
      have := ih i (by simpa using h)
      simp [updateAt, this]

theorem correctHeader_empty (t : TextInput) (h : t.Value = "") : correctHeader t = t := by
  cases t with
  | mk value a b c d e =>
    simp only [TextInput.Value] at h
    subst h
    rfl

theorem setReqHeader_skip (m : model)
    (h : (m.input header).Value = "" ∨ (m.input headerVal).Value = "")
    (hlen : m.inputs.length = 12) :
    m.setReqHeader = m.mapInput header correctHeader := by
  unfold model.setReqHeader
  simp only []
  rw [if_neg]
  intro ⟨h1, h2⟩
  rw [input_mapInput_same m header _ (by rw [hlen]; decide)] at h1
  rw [input_mapInput_other m header headerVal _ (by decide)] at h2
  rcases h with h | h
  · rw [correctHeader_empty _ h] at h1
    exact h1 h
  · exact h2 h

/-- C6, as the code has it. With an empty key text or an empty value text,
`setReqParam`, `setReqCookie` and `setReqForm` return the state as it was: draft,
form store and all slot texts. `setReqHeader` leaves the draft, the form store
and every input but the header-name slot as they were, and writes the
canonicalised name back into the header-name slot; with an empty name the whole
state is as it was. -/
theorem empty_pair_commit_skipped (L : Lib) (m : model) (hlen : m.inputs.length = 12) :
    ((m.input param).Value = "" ∨ (m.input paramVal).Value = "" → m.setReqParam L = m) ∧
    ((m.input cookie).Value = "" ∨ (m.input cookieVal).Value = "" → m.setReqCookie = m) ∧
    ((m.input form).Value = "" ∨ (m.input formVal).Value = "" → m.setReqForm L = m) ∧
    ((m.input header).Value = "" ∨ (m.input headerVal).Value = "" →
      m.setReqHeader.req = m.req ∧
      m.setReqHeader.formValues = m.formValues ∧
      (∀ j, j ≠ header → m.setReqHeader.input j = m.input j) ∧
      (m.setReqHeader.input header).Value =
        CanonicalHeaderKey (String.mk (replaceSpaces (TrimString (m.input header).Value).data)) ∧
      ((m.input header).Value = "" → m.setReqHeader = m)) := by
  refine ⟨?_, ?_, ?_, ?_⟩
  · intro h
    unfold model.setReqParam
    simp only []
    rw [if_neg]
    intro ⟨h1, h2⟩
    rcases h with h | h
    · exact h1 h
    · exact h2 h
  · intro h
    unfold model.setReqCookie
    simp only []
    rw [if_neg]
    intro ⟨h1, h2⟩
    rcases h with h | h
    · exact h1 h
    · exact h2 h
  · intro h
    unfold model.setReqForm
    simp only []
    rw [if_neg]
    intro ⟨h1, h2⟩
    rcases h with h | h
    · exact h1 h
    · exact h2 h
  · intro h
    have e := setReqHeader_skip m h hlen
    refine ⟨by rw [e]; rfl, by rw [e]; rfl, ?_, ?_, ?_⟩
    · intro j hj
      rw [e]
      exact input_mapInput_other m header j _ (Ne.symm hj)
    · rw [e, input_mapInput_same m header _ (by rw [hlen]; decide)]
      rfl
    · intro hz
      rw [e]
      unfold model.mapInput
      rw [updateAt_fix m.inputs header correctHeader (correctHeader_empty _ hz)]

/-- Witness of C6: the start state, all of whose pair slots are empty, and the
state with the header name "x auth" and an empty header value. -/
theorem empty_pair_commit_skipped_witness :
    (initialModel 100 50).setReqCookie = initialModel 100 50 ∧
    (initialModel 100 50).setReqHeader = initialModel 100 50 ∧
    headerNameOnly.setReqHeader.req = headerNameOnly.req ∧
    (headerNameOnly.setReqHeader.input header).Value = "X-Auth" := by
  have h := empty_pair_commit_skipped sampleLib (initialModel 100 50) (by decide)
  have k := (empty_pair_commit_skipped sampleLib headerNameOnly (by decide)).2.2.2
    (Or.inr (by decide))
  refine ⟨h.2.1 (Or.inl (by decide)), (h.2.2.2 (Or.inl (by decide))).2.2.2.2 (by decide),
    k.1, ?_⟩
  rw [k.2.2.2.1]
  decide

/-- C6 as stated fails for the header pair: with the name text "x auth" and an
empty value text, `setReqHeader` merges nothing into the draft but changes the
pending name text to "X-Auth". -/
theorem setReqHeader_empty_value_counterexample :
    (headerNameOnly.input header).Value = "x auth" ∧
    (headerNameOnly.input headerVal).Value = "" ∧
    headerNameOnly.setReqHeader.req = headerNameOnly.req ∧
    (headerNameOnly.setReqHeader.input header).Value = "X-Auth" ∧
    (headerNameOnly.setReqHeader.input header).Value ≠ (headerNameOnly.input header).Value := by
  decide

/-! ## Header-name canonicalisation -/

theorem upperByte_ne_dash (c : Char) (h : c ≠ '-') : upperByte c ≠ '-' := by
  unfold upperByte
  split
  · rename_i hc
    have h1 : 97 ≤ c.toNat := hc.1
    have h2 : c.toNat ≤ 122 := hc.2
    generalize c.toNat = n at h1 h2
    interval_cases n <;> decide
  · exact h

theorem lowerByte_ne_dash (c : Char) (h : c ≠ '-') : lowerByte c ≠ '-' := by
  unfold lowerByte
  split
  · rename_i hc
    have h1 : 65 ≤ c.toNat := hc.1
    have h2 : c.toNat ≤ 90 := hc.2
    generalize c.toNat = n at h1 h2
    interval_cases n <;> decide
  · exact h

theorem splitDash_ne_nil (s : List Char) : splitDash s ≠ [] := by
  cases s with
  | nil => simp [splitDash]
  | cons c cs =>
    unfold splitDash
    split
    · simp
    · split <;> simp

theorem joinDash_cons_cons (x : Char) (p : List Char) (ps : List (List Char)) :
    joinDash ((x :: p) :: ps) = x :: joinDash (p :: ps) := by
  cases ps <;> simp [joinDash]

theorem canonLoop_tokens (s : List Char) :
    canonLoop true s = joinDash ((splitDash s).map capitalizeToken) ∧
    canonLoop false s =
      joinDash (((splitDash s).headD []).map lowerByte
        :: ((splitDash s).tail).map capitalizeToken) := by
  induction s with
  | nil => simp [canonLoop, splitDash, joinDash, capitalizeToken]
  | cons c cs ih =>
    obtain ⟨ih1, ih2⟩ := ih
    obtain ⟨q, qs, hq⟩ := List.exists_cons_of_ne_nil (splitDash_ne_nil cs)
    rw [hq] at ih1 ih2
    simp only [List.map_cons, List.headD_cons, List.tail_cons] at ih1 ih2
    by_cases hc : c = '-'
    · subst hc
      have hu : upperByte '-' = '-' := by decide
      have hl : lowerByte '-' = '-' := by decide
      constructor
      · simp [canonLoop, hu, ih1, splitDash, hq, joinDash, capitalizeToken]
      · simp [canonLoop, hl, ih1, splitDash, hq, joinDash]
    · have hu := upperByte_ne_dash c hc
      have hl := lowerByte_ne_dash c hc
      constructor
      · simp [canonLoop, hu, ih2, splitDash, hc, hq, capitalizeToken, joinDash_cons_cons]
      · simp [canonLoop, hl, ih2, splitDash, hc, hq, joinDash_cons_cons]

theorem mem_of_mem_trimChars (s : List Char) (c : Char) (h : c ∈ trimChars s) : c ∈ s := by
  unfold trimChars at h
  rw [List.mem_reverse] at h
  have h1 := (List.dropWhile_suffix isASCIISpace).subset h
  rw [List.mem_reverse] at h1
  exact (List.dropWhile_suffix isASCIISpace).subset h1

theorem all_token_replaceSpaces (s : List Char)
    (h : ∀ c ∈ s, isTokenChar c = true ∨ c = ' ') :
    (replaceSpaces s).all isTokenChar = true := by
  unfold replaceSpaces
  rw [List.all_eq_true]
  intro x hx
  rw [List.mem_map] at hx
  obtain ⟨c, hc, rfl⟩ := hx
  split
  · decide
  · rcases h c hc with h1 | h1
    · exact h1
    · contradiction

/-- C7, as the code has it. For every header-name text made of token characters
(ASCII letters, digits and the symbols of the token table) and spaces,
`correctHeader` leaves in the slot the text with the surrounding whitespace
trimmed, every space replaced by a hyphen and every hyphen-separated token
written with its first character in upper case and the others in lower case. -/
theorem correctHeader_token_text (t : TextInput)
    (h : ∀ c ∈ t.Value.data, isTokenChar c = true ∨ c = ' ') :
    (correctHeader t).Value = headerNameSpec t.Value := by
  have hall : (replaceSpaces (trimChars t.Value.data)).all isTokenChar = true :=
    all_token_replaceSpaces _ (fun c hc => h c (mem_of_mem_trimChars _ c hc))
  show String.mk (canonicalChars (replaceSpaces (trimChars t.Value.data))) = _
  unfold canonicalChars headerNameSpec
  rw [if_pos hall, (canonLoop_tokens _).1]

/-- Witness of C7: "x auth token" becomes "X-Auth-Token". -/
theorem correctHeader_token_text_witness :
    (correctHeader (inputWith " x aUTH token ")).Value = "X-Auth-Token" := by
  rw [correctHeader_token_text (inputWith " x aUTH token ") (by decide)]
  decide

/-- C7 as stated fails for a text with a character outside the token table: the
text "x Auth@token" has a space and mixed case, and `correctHeader` leaves
"x-Auth@token" in the slot, whose tokens are not recased. -/
theorem correctHeader_non_token_counterexample :
    (correctHeader (inputWith "x Auth@token")).Value = "x-Auth@token" ∧
    headerNameSpec "x Auth@token" = "X-Auth@token" ∧
    (correctHeader (inputWith "x Auth@token")).Value ≠ headerNameSpec "x Auth@token" := by
  decide

/-! ## Cookies -/

theorem cookieSegments_ne_nil (s : List Char) : cookieSegments s ≠ [] := by
  cases s with
  | nil => simp [cookieSegments]
  | cons c cs =>
    unfold cookieSegments
    split
    · simp
    · split <;> simp

theorem readCookiePart_nil : readCookiePart [] = none := by decide

theorem cookieParts_segments (x : List Char) :
    cookieParts x = cookieSegments x ∨ cookieParts x ++ [[]] = cookieSegments x := by
  induction x with
  | nil => right; rfl
  | cons d z ih =>
    by_cases hd : d = ';'
    · subst hd
      rcases ih with ih | ih
      · left; simp [cookieParts, cookieSegments, ih]
      · right; simp [cookieParts, cookieSegments, ← ih]
    · rcases ih with ih | ih
      · left; simp [cookieParts, cookieSegments, hd, ih]
      · cases hp : cookieParts z with
        | nil =>
          rw [hp] at ih
          left
          simp [cookieParts, cookieSegments, hd, hp, ← ih]
        | cons p ps =>
          rw [hp] at ih
          right
          simp [cookieParts, cookieSegments, hd, hp, ← ih]

theorem cookieParts_cookies (x : List Char) :
    (cookieParts x).filterMap readCookiePart = segmentCookies x := by
  unfold segmentCookies
  rcases cookieParts_segments x with h | h
  · rw [h]
  · rw [← h, List.filterMap_append]
    simp [readCookiePart_nil]

theorem cookieSegments_append (l r : List Char) :
    cookieSegments (l ++ ';' :: r) = cookieSegments l ++ cookieSegments r := by
  induction l with
  | nil => simp [cookieSegments]
  | cons d z ih =>
    by_cases hd : d = ';'
    · subst hd
      simp [cookieSegments, ih]
    · obtain ⟨p, ps, hp⟩ := List.exists_cons_of_ne_nil (cookieSegments_ne_nil z)
      simp [cookieSegments, hd, ih, hp]

theorem segmentCookies_append (l r : List Char) :
    segmentCookies (l ++ ';' :: r) = segmentCookies l ++ segmentCookies r := by
  unfold segmentCookies
  rw [cookieSegments_append, List.filterMap_append]

theorem space_ne_semicolon (c : Char) (h : isASCIISpace c = true) : c ≠ ';' := by
  intro e
  subst e
  exact absurd h (by decide)

theorem trimChars_cons_space (c : Char) (p : List Char) (h : isASCIISpace c = true) :
    trimChars (c :: p) = trimChars p := by
  simp [trimChars, List.dropWhile_cons, h]

theorem dropWhile_snoc_space (c : Char) (p : List Char) (h : isASCIISpace c = true) :
    (p ++ [c]).dropWhile isASCIISpace =
      if p.all isASCIISpace then [] else p.dropWhile isASCIISpace ++ [c] := by
  induction p with
  | nil => simp [List.dropWhile_cons, h]
  | cons d z ih =>
    by_cases hd : isASCIISpace d = true
    · simp [List.dropWhile_cons, hd, ih]
    · simp [List.dropWhile_cons, hd]

theorem trimChars_snoc_space (c : Char) (p : List Char) (h : isASCIISpace c = true) :
    trimChars (p ++ [c]) = trimChars p := by
  unfold trimChars
  rw [dropWhile_snoc_space c p h]
  split
  · rename_i hall
    have : p.dropWhile isASCIISpace = [] := by
      rw [List.dropWhile_eq_nil_iff]
      intro x hx
      exact (List.all_eq_true.1 hall) x hx
    rw [this]
  · simp [List.dropWhile_cons, h]

theorem readCookiePart_cons_space (c : Char) (p : List Char) (h : isASCIISpace c = true) :
    readCookiePart (c :: p) = readCookiePart p := by
  unfold readCookiePart
  rw [trimChars_cons_space c p h]

theorem readCookiePart_snoc_space (c : Char) (p : List Char) (h : isASCIISpace c = true) :
    readCookiePart (p ++ [c]) = readCookiePart p := by
  unfold readCookiePart
  rw [trimChars_snoc_space c p h]

theorem segmentCookies_cons_space (c : Char) (x : List Char) (h : isASCIISpace c = true) :
    segmentCookies (c :: x) = segmentCookies x := by
  obtain ⟨p, ps, hp⟩ := List.exists_cons_of_ne_nil (cookieSegments_ne_nil x)
  simp [segmentCookies, cookieSegments, space_ne_semicolon c h, hp, List.filterMap_cons,
    readCookiePart_cons_space c p h]

theorem cookieSegments_snoc (c : Char) (x : List Char) (h : c ≠ ';') :
    ∃ ps p, cookieSegments x = ps ++ [p] ∧ cookieSegments (x ++ [c]) = ps ++ [p ++ [c]] := by
  induction x with
  | nil => exact ⟨[], [], by simp [cookieSegments], by simp [cookieSegments, h]⟩
  | cons d z ih =>
    obtain ⟨ps, p, h1, h2⟩ := ih
    by_cases hd : d = ';'
    · subst hd
      exact ⟨[] :: ps, p, by simp [cookieSegments, h1], by simp [cookieSegments, h2]⟩
    · cases ps with
      | nil =>
        exact ⟨[], d :: p, by simp [cookieSegments, hd, h1],
          by simp at h2; simp [cookieSegments, hd, h2]⟩
      | cons q qs =>
        exact ⟨(d :: q) :: qs, p, by simp [cookieSegments, hd, h1],
          by simp at h2; simp [cookieSegments, hd, h2]⟩

theorem segmentCookies_snoc_space (c : Char) (x : List Char) (h : isASCIISpace c = true) :
    segmentCookies (x ++ [c]) = segmentCookies x := by
  obtain ⟨ps, p, h1, h2⟩ := cookieSegments_snoc c x (space_ne_semicolon c h)
  simp only [segmentCookies, h1, h2, List.filterMap_append, List.filterMap_cons,
    readCookiePart_snoc_space c p h]

theorem segmentCookies_dropWhile (x : List Char) :
    segmentCookies (x.dropWhile isASCIISpace) = segmentCookies x := by
  induction x with
  | nil => rfl
  | cons d z ih =>
    by_cases hd : isASCIISpace d = true
    · rw [List.dropWhile_cons_of_pos hd, ih, segmentCookies_cons_space d z hd]
    · rw [List.dropWhile_cons_of_neg hd]

theorem segmentCookies_dropWhile_end (y : List Char) :
    segmentCookies ((y.dropWhile isASCIISpace).reverse) = segmentCookies y.reverse := by
  induction y with
  | nil => rfl
  | cons d z ih =>
    by_cases hd : isASCIISpace d = true
    · rw [List.dropWhile_cons_of_pos hd, ih, List.reverse_cons,
        segmentCookies_snoc_space d _ hd]
    · rw [List.dropWhile_cons_of_neg hd]

theorem segmentCookies_trim (x : List Char) :
    segmentCookies (trimChars x) = segmentCookies x := by
  unfold trimChars
  rw [segmentCookies_dropWhile_end, List.reverse_reverse, segmentCookies_dropWhile]

theorem readCookieLine_eq (x : List Char) : readCookieLine x = segmentCookies x := by
  unfold readCookieLine
  rw [cookieParts_cookies, segmentCookies_trim]

theorem space_cases (c : Char) (h : isASCIISpace c = true) :
    c = ' ' ∨ c = '\t' ∨ c = '\n' ∨ c = '\r' := by
  simpa [isASCIISpace, or_assoc] using h

theorem token_not_space (c : Char) (h : isTokenChar c = true) : isASCIISpace c = false := by
  cases hs : isASCIISpace c with
  | false => rfl
  | true =>
    rcases space_cases c hs with e | e | e | e <;> subst e <;> exact absurd h (by decide)

theorem token_ne_eq (c : Char) (h : isTokenChar c = true) : c ≠ '=' := by
  intro e; subst e; exact absurd h (by decide)

theorem token_ne_semicolon (c : Char) (h : isTokenChar c = true) : c ≠ ';' := by
  intro e; subst e; exact absurd h (by decide)

theorem valid_ne_semicolon (c : Char) (h : validCookieValueByte c = true) : c ≠ ';' := by
  intro e; subst e; exact absurd h (by decide)

theorem valid_ne_quote (c : Char) (h : validCookieValueByte c = true) : c ≠ '"' := by
  intro e; subst e; exact absurd h (by decide)

theorem valid_space (c : Char) (h : validCookieValueByte c = true)
    (hs : isASCIISpace c = true) : c = ' ' := by
  rcases space_cases c hs with e | e | e | e
  · exact e
  all_goals (subst e; exact absurd h (by decide))

theorem dropWhile_head_false (p : Char → Bool) (l : List Char)
    (h : ∀ a ∈ l.head?, p a = false) : l.dropWhile p = l := by
  cases l with
  | nil => rfl
  | cons a t =>
    have := h a (by simp)
    simp [List.dropWhile_cons, this]

theorem trimChars_id (s : List Char) (h1 : ∀ a ∈ s.head?, isASCIISpace a = false)
    (h2 : ∀ b ∈ s.getLast?, isASCIISpace b = false) : trimChars s = s := by
  unfold trimChars
  rw [dropWhile_head_false _ s h1, dropWhile_head_false _ s.reverse (by
    rw [List.head?_reverse]; exact h2), List.reverse_reverse]

theorem takeWhile_until (p : Char → Bool) (n r : List Char) (x : Char)
    (hn : ∀ c ∈ n, p c = true) (hx : p x = false) :
    (n ++ x :: r).takeWhile p = n ∧ (n ++ x :: r).dropWhile p = x :: r := by
  induction n with
  | nil => simp [List.takeWhile_cons, List.dropWhile_cons, hx]
  | cons a t ih =>
    have ha := hn a (by simp)
    have := ih (fun c hc => hn c (by simp [hc]))
    simp [List.takeWhile_cons, List.dropWhile_cons, ha, this]

theorem cookieSegments_no_semicolon (s : List Char) (h : ∀ c ∈ s, c ≠ ';') :
    cookieSegments s = [s] := by
  induction s with
  | nil => rfl
  | cons a t ih =>
    have ha := h a (by simp)
    have := ih (fun c hc => h c (by simp [hc]))
    simp [cookieSegments, ha, this]

theorem parseCookieValue_sanitize (v : List Char) (hne : v ≠ [])
    (hv : v.all validCookieValueByte = true) :
    parseCookieValue (sanitizeCookieValue v) = some v := by
  have hf : v.filter validCookieValueByte = v := by
    rw [List.filter_eq_self]
    exact fun c hc => (List.all_eq_true.1 hv) c hc
  obtain ⟨a, t, rfl⟩ := List.exists_cons_of_ne_nil hne
  have ha : a ≠ '"' := valid_ne_quote a ((List.all_eq_true.1 hv) a (by simp))
  unfold sanitizeCookieValue
  simp only [hf]
  rw [if_neg (by simp)]
  split
  · have hc : 1 < ('"' :: (a :: t ++ ['"'])).length ∧
        ('"' :: (a :: t ++ ['"'])).head? = some '"' ∧
        ('"' :: (a :: t ++ ['"'])).getLast? = some '"' := by
      refine ⟨by simp, by simp, ?_⟩
      rw [← List.cons_append, List.getLast?_append]
      simp
    have e : (('"' :: (a :: t ++ ['"'])).drop 1).dropLast = a :: t := by
      rw [List.drop_one, List.tail_cons, List.dropLast_concat]
    unfold parseCookieValue
    simp only []
    rw [if_pos hc, e, if_pos hv]
  · have hc : ¬ (1 < (a :: t).length ∧ (a :: t).head? = some '"' ∧
        (a :: t).getLast? = some '"') := by
      intro h
      exact ha (by simpa using h.2.1)
    unfold parseCookieValue
    simp only []
    rw [if_neg hc, if_pos hv]

theorem sanitizeCookieValue_shape (v : List Char) (hne : v ≠ [])
    (hv : v.all validCookieValueByte = true) :
    (∀ c ∈ sanitizeCookieValue v, c ≠ ';') ∧
    (∃ b, (sanitizeCookieValue v).getLast? = some b ∧ isASCIISpace b = false) := by
  have hf : v.filter validCookieValueByte = v := by
    rw [List.filter_eq_self]
    exact fun c hc => (List.all_eq_true.1 hv) c hc
  have hval := List.all_eq_true.1 hv
  unfold sanitizeCookieValue
  simp only [hf]
  rw [if_neg (by simpa using hne)]
  split
  · constructor
    · intro c hc
      simp only [List.mem_cons, List.mem_append, List.mem_singleton, List.not_mem_nil,
        or_false] at hc
      rcases hc with e | e | e
      · subst e; decide
      · exact valid_ne_semicolon c (hval c e)
      · subst e; decide
    · refine ⟨'"', ?_, by decide⟩
      rw [← List.cons_append, List.getLast?_append]
      simp
  · rename_i hany
    constructor
    · exact fun c hc => valid_ne_semicolon c (hval c hc)
    · obtain ⟨b, hb⟩ : ∃ b, v.getLast? = some b := by
        cases hl : v.getLast? with
        | none => exact absurd (List.getLast?_eq_none_iff.1 hl) hne
        | some b => exact ⟨b, rfl⟩
      refine ⟨b, hb, ?_⟩
      have hbm : b ∈ v := List.mem_of_getLast?_eq_some hb
      cases hs : isASCIISpace b with
      | false => rfl
      | true =>
        have := valid_space b (hval b hbm) hs
        subst this
        exact absurd (List.any_eq_true.2 ⟨' ', hbm, by decide⟩) hany

theorem readCookiePart_pair (n v : List Char) (hn : n ≠ []) (hnt : n.all isTokenChar = true)
    (hv : v ≠ []) (hvv : v.all validCookieValueByte = true) :
    readCookiePart (n ++ '=' :: sanitizeCookieValue v) = some ⟨String.mk n, String.mk v⟩ := by
  obtain ⟨_, b, hb, hbs⟩ := sanitizeCookieValue_shape v hv hvv
  have htok := List.all_eq_true.1 hnt
  have hlast : (n ++ '=' :: sanitizeCookieValue v).getLast? = some b := by
    rw [List.getLast?_append]
    simp [List.getLast?_cons, hb]
  have hnspace : ∀ c ∈ n, isASCIISpace c = false := fun c hc => token_not_space c (htok c hc)
  have htrim : trimChars (n ++ '=' :: sanitizeCookieValue v) = n ++ '=' :: sanitizeCookieValue v := by
    apply trimChars_id
    · intro a ha
      apply hnspace a
      cases n with
      | nil => exact absurd rfl hn
      | cons x t => simp at ha; simp [ha]
    · intro c hc
      rw [hlast] at hc
      simp at hc
      rw [← hc]; exact hbs
  have hcut := takeWhile_until (fun c => c != '=') n (sanitizeCookieValue v) '='
    (fun c hc => by simpa using token_ne_eq c (htok c hc)) (by simp)
  have htrimn : trimChars n = n := by
    apply trimChars_id
    · intro a ha; exact hnspace a (List.mem_of_mem_head? ha)
    · intro a ha; exact hnspace a (List.mem_of_getLast?_eq_some ha)
  unfold readCookiePart
  simp only [htrim, hcut.1, hcut.2, htrimn, List.drop_one, List.tail_cons,
    parseCookieValue_sanitize v hv hvv, hnt]
  cases n with
  | nil => exact absurd rfl hn
  | cons x t => simp

theorem segmentCookies_pair (n v : List Char) (hn : n ≠ []) (hnt : n.all isTokenChar = true)
    (hv : v ≠ []) (hvv : v.all validCookieValueByte = true) :
    segmentCookies (n ++ '=' :: sanitizeCookieValue v) = [⟨String.mk n, String.mk v⟩] := by
  have htok := List.all_eq_true.1 hnt
  have hs : ∀ c ∈ n ++ '=' :: sanitizeCookieValue v, c ≠ ';' := by
    intro c hc
    simp only [List.mem_append, List.mem_cons] at hc
    rcases hc with e | e | e
    · exact token_ne_semicolon c (htok c e)
    · subst e; decide
    · exact (sanitizeCookieValue_shape v hv hvv).1 c e
  unfold segmentCookies
  rw [cookieSegments_no_semicolon _ hs]
  simp [readCookiePart_pair n v hn hnt hv hvv]

theorem sanitizeCookieName_token (n : List Char) (hnt : n.all isTokenChar = true) :
    sanitizeCookieName n = n := by
  unfold sanitizeCookieName
  conv_rhs => rw [← List.map_id n]
  apply List.map_congr_left
  intro c hc
  have hs := token_not_space c ((List.all_eq_true.1 hnt) c hc)
  rw [if_neg]
  · rfl
  · rintro (e | e) <;> subst e <;> exact absurd hs (by decide)

theorem valuesAt_putAt (h : Values) (k : String) (vs : List String) :
    valuesAt (putAt h k vs) k = vs := by
  induction h with
  | nil => simp [putAt, valuesAt]
  | cons e rest ih =>
    obtain ⟨k1, ws⟩ := e
    by_cases hk : k1 = k
    · simp [putAt, valuesAt, hk]
    · simp [putAt, valuesAt, hk, ih]

theorem canonical_cookie : CanonicalHeaderKey "Cookie" = "Cookie" := by decide

theorem readCookies_addCookie (h : Values) (c : Cookie)
    (hn : isCookieNameValid c.Name = true) (hv : isCookieValueClean c.Value = true)
    (hline : (valuesAt h "Cookie").length ≤ 1) :
    readCookies (addCookieHeader h c) = readCookies h ++ [c] ∧
    (valuesAt (addCookieHeader h c) "Cookie").length ≤ 1 := by
  obtain ⟨n, v⟩ := c
  simp only [isCookieNameValid, isCookieValueClean, Bool.and_eq_true, Bool.not_eq_true',
    List.isEmpty_eq_false_iff_exists_mem] at hn hv
  have hn1 : n.data ≠ [] := by
    obtain ⟨x, hx⟩ := hn.1; exact List.ne_nil_of_mem hx
  have hv1 : v.data ≠ [] := by
    obtain ⟨x, hx⟩ := hv.1; exact List.ne_nil_of_mem hx
  have hpair := segmentCookies_pair n.data v.data hn1 hn.2 hv1 hv.2
  have htext : (cookiePairText ⟨n, v⟩).data = n.data ++ '=' :: sanitizeCookieValue v.data := by
    simp [cookiePairText, sanitizeCookieName_token n.data hn.2]
  unfold addCookieHeader
  simp only [Header.Get, Header.Set, canonical_cookie]
  split
  · rename_i hold
    rw [valuesAt_putAt]
    refine ⟨?_, by simp⟩
    unfold readCookies
    rw [valuesAt_putAt]
    match hl : valuesAt h "Cookie", hline with
    | [], _ => simp [hl] at hold
    | [l], _ =>
      simp only [List.headD_cons, List.foldr_cons, List.foldr_nil, List.append_nil,
        String.data_append, readCookieLine_eq, htext]
      have e : l.data ++ [';', ' '] ++ (n.data ++ '=' :: sanitizeCookieValue v.data)
          = l.data ++ ';' :: (' ' :: (n.data ++ '=' :: sanitizeCookieValue v.data)) := by simp
      rw [e, segmentCookies_append, segmentCookies_cons_space ' ' _ (by decide), hpair]
  · rename_i hold
    rw [valuesAt_putAt]
    refine ⟨?_, by simp⟩
    unfold readCookies
    rw [valuesAt_putAt]
    simp only [List.foldr_cons, List.foldr_nil, List.append_nil, readCookieLine_eq, htext, hpair]
    match hl : valuesAt h "Cookie", hline with
    | [], _ => simp
    | [l], _ =>
      have hle : l = "" := by simpa [hl] using hold
      subst hle
      simp only [List.foldr_cons, List.foldr_nil, List.append_nil, readCookieLine_eq]
      rfl

theorem ne_empty_of_data (s : String) (h : s.data ≠ []) : s ≠ "" := by
  intro e; subst e; exact h rfl

theorem any_pair_iff (l : List Cookie) (n v : String) :
    l.any (fun i => decide (i.Name = n) && decide (i.Value = v)) = true ↔ (⟨n, v⟩ : Cookie) ∈ l := by
  rw [List.any_eq_true]
  constructor
  · rintro ⟨⟨a, b⟩, hx, hab⟩
    simp at hab
    obtain ⟨rfl, rfl⟩ := hab
    exact hx
  · intro h
    exact ⟨⟨n, v⟩, h, by simp⟩

theorem setReqCookie_header (m : model)
    (hn : isCookieNameValid (m.input cookie).Value = true)
    (hv : isCookieValueClean (m.input cookieVal).Value = true) :
    m.setReqCookie.req.Header =
      (if (⟨(m.input cookie).Value, (m.input cookieVal).Value⟩ : Cookie) ∈ readCookies m.req.Header
       then m.req.Header
       else addCookieHeader m.req.Header ⟨(m.input cookie).Value, (m.input cookieVal).Value⟩) ∧
    m.setReqCookie.inputs.length = m.inputs.length := by
  have hn1 : (m.input cookie).Value ≠ "" := by
    apply ne_empty_of_data
    simp only [isCookieNameValid, Bool.and_eq_true, Bool.not_eq_true'] at hn
    intro e; rw [e] at hn; simp at hn
  have hv1 : (m.input cookieVal).Value ≠ "" := by
    apply ne_empty_of_data
    simp only [isCookieValueClean, Bool.and_eq_true, Bool.not_eq_true'] at hv
    intro e; rw [e] at hv; simp at hv
  unfold model.setReqCookie
  simp only []
  rw [if_pos ⟨hn1, hv1⟩]
  by_cases hmem : (⟨(m.input cookie).Value, (m.input cookieVal).Value⟩ : Cookie)
      ∈ readCookies m.req.Header
  · have := (any_pair_iff _ _ _).2 hmem
    simp [this, hmem, model.mapInput, updateAt_length]
  · have : (readCookies m.req.Header).any
        (fun i => decide (i.Name = (m.input cookie).Value)
          && decide (i.Value = (m.input cookieVal).Value)) = false := by
      cases hb : (readCookies m.req.Header).any
        (fun i => decide (i.Name = (m.input cookie).Value)
          && decide (i.Value = (m.input cookieVal).Value)) with
      | false => rfl
      | true => exact absurd ((any_pair_iff _ _ _).1 hb) hmem
    simp [this, hmem, model.mapInput, updateAt_length]

theorem setReqCookie_cookies (m : model)
    (hn : isCookieNameValid (m.input cookie).Value = true)
    (hv : isCookieValueClean (m.input cookieVal).Value = true)
    (hline : (valuesAt m.req.Header "Cookie").length ≤ 1) :
    readCookies m.setReqCookie.req.Header =
      (if (⟨(m.input cookie).Value, (m.input cookieVal).Value⟩ : Cookie) ∈ readCookies m.req.Header
       then readCookies m.req.Header
       else readCookies m.req.Header ++ [⟨(m.input cookie).Value, (m.input cookieVal).Value⟩]) ∧
    (valuesAt m.setReqCookie.req.Header "Cookie").length ≤ 1 ∧
    m.setReqCookie.inputs.length = m.inputs.length := by
  obtain ⟨h1, h2⟩ := setReqCookie_header m hn hv
  refine ⟨?_, ?_, h2⟩
  · rw [h1]
    split
    · rfl
    · exact (readCookies_addCookie _ _ hn hv hline).1
  · rw [h1]
    split
    · exact hline
    · exact (readCookies_addCookie _ _ hn hv hline).2

theorem withCookieText_spec (m : model) (n v : String) (hlen : m.inputs.length = 12) :
    ((m.withCookieText n v).input cookie).Value = n ∧
    ((m.withCookieText n v).input cookieVal).Value = v ∧
    (m.withCookieText n v).req = m.req ∧
    (m.withCookieText n v).inputs.length = 12 := by
  unfold model.withCookieText
  refine ⟨?_, ?_, rfl, by simp [model.mapInput, updateAt_length, hlen]⟩
  · rw [input_mapInput_other _ cookieVal cookie _ (by decide),
      input_mapInput_same m cookie _ (by rw [hlen]; decide)]
    rfl
  · rw [input_mapInput_same _ cookieVal _ (by
      simp [model.mapInput, updateAt_length, hlen]; decide)]
    rfl

theorem commitCookie_cookies (m : model) (n v : String) (hlen : m.inputs.length = 12)
    (hline : (valuesAt m.req.Header "Cookie").length ≤ 1)
    (hn : isCookieNameValid n = true) (hv : isCookieValueClean v = true) :
    readCookies (m.commitCookie n v).req.Header =
      (if (⟨n, v⟩ : Cookie) ∈ readCookies m.req.Header then readCookies m.req.Header
       else readCookies m.req.Header ++ [⟨n, v⟩]) ∧
    (valuesAt (m.commitCookie n v).req.Header "Cookie").length ≤ 1 ∧
    (m.commitCookie n v).inputs.length = 12 := by
  obtain ⟨e1, e2, e3, e4⟩ := withCookieText_spec m n v hlen
  have := setReqCookie_cookies (m.withCookieText n v) (by rw [e1]; exact hn)
    (by rw [e2]; exact hv) (by rw [e3]; exact hline)
  rw [e1, e2, e3, e4] at this
  exact this

/-- C8, as the code has it. For every draft whose `Cookie` header has at most one
line, every cookie name `n` that is a non-empty token and all non-empty values
`v`, `v2` of valid cookie-value bytes: after the commit of `(n, v)` the cookie list
is the previous list when it already had a cookie with this name and this value,
and the previous list with `(n, v)` appended otherwise; committing `(n, v)` twice
gives the list of committing it once; and after `(n, v)` then `(n, v2)` with
`v != v2` both cookies named `n` are in the list. -/
theorem cookies_keyed_by_pair (m : model) (n v v2 : String) (hlen : m.inputs.length = 12)
    (hline : (valuesAt m.req.Header "Cookie").length ≤ 1)
    (hn : isCookieNameValid n = true) (hv : isCookieValueClean v = true)
    (hv2 : isCookieValueClean v2 = true) (hne : v ≠ v2) :
    readCookies (m.commitCookie n v).req.Header =
      (if (⟨n, v⟩ : Cookie) ∈ readCookies m.req.Header then readCookies m.req.Header
       else readCookies m.req.Header ++ [⟨n, v⟩]) ∧
    readCookies ((m.commitCookie n v).commitCookie n v).req.Header =
      readCookies (m.commitCookie n v).req.Header ∧
    ((⟨n, v⟩ : Cookie) ∈ readCookies ((m.commitCookie n v).commitCookie n v2).req.Header ∧
     (⟨n, v2⟩ : Cookie) ∈ readCookies ((m.commitCookie n v).commitCookie n v2).req.Header ∧
     (⟨n, v⟩ : Cookie) ≠ ⟨n, v2⟩) := by
  obtain ⟨a1, a2, a3⟩ := commitCookie_cookies m n v hlen hline hn hv
  obtain ⟨b1, _, _⟩ := commitCookie_cookies (m.commitCookie n v) n v a3 a2 hn hv
  obtain ⟨c1, _, _⟩ := commitCookie_cookies (m.commitCookie n v) n v2 a3 a2 hn hv2
  have hin : (⟨n, v⟩ : Cookie) ∈ readCookies (m.commitCookie n v).req.Header := by
    rw [a1]
    split
    · assumption
    · simp
  refine ⟨a1, ?_, ?_, ?_, ?_⟩
  · rw [b1, if_pos hin]
  · rw [c1]
    split
    · exact hin
    · exact List.mem_append_left _ hin
  · rw [c1]
    split
    · assumption
    · simp
  · intro e
    exact hne (Cookie.mk.inj e).2

/-- Witness of C8: from the start state, the cookie `a=1` is committed, then
`a=1` again or `a=2`. -/
theorem cookies_keyed_by_pair_witness :
    readCookies ((initialModel 100 50).commitCookie "a" "1").req.Header = [⟨"a", "1"⟩] ∧
    readCookies (((initialModel 100 50).commitCookie "a" "1").commitCookie "a" "1").req.Header
      = readCookies ((initialModel 100 50).commitCookie "a" "1").req.Header ∧
    (⟨"a", "2"⟩ : Cookie) ∈
      readCookies (((initialModel 100 50).commitCookie "a" "1").commitCookie "a" "2").req.Header := by
  have h := cookies_keyed_by_pair (initialModel 100 50) "a" "1" "2" (by decide) (by decide)
    (by decide) (by decide) (by decide) (by decide)
  exact ⟨h.1, h.2.1, h.2.2.2.1⟩

/-- C8 as stated fails for a value with a byte that `AddCookie` drops: the commit
of the name "a" with the value "x;y" on the start state stores the cookie
`a=xy`, so the list is not the previous list with `(a, x;y)` appended, and
committing the pair a second time appends `a=xy` once more. -/
theorem cookie_value_sanitized_counterexample :
    readCookies (initialModel 100 50).req.Header = [] ∧
    readCookies ((initialModel 100 50).commitCookie "a" "x;y").req.Header = [⟨"a", "xy"⟩] ∧
    readCookies ((initialModel 100 50).commitCookie "a" "x;y").req.Header
      ≠ readCookies (initialModel 100 50).req.Header ++ [⟨"a", "x;y"⟩] ∧
    readCookies (((initialModel 100 50).commitCookie "a" "x;y").commitCookie "a" "x;y").req.Header
      = [⟨"a", "xy"⟩, ⟨"a", "xy"⟩] ∧
    readCookies (((initialModel 100 50).commitCookie "a" "x;y").commitCookie "a" "x;y").req.Header
      ≠ readCookies ((initialModel 100 50).commitCookie "a" "x;y").req.Header := by
  decide

end RHttp
